/-
  Verification of the AVL-tree ordered map in src/core/lib/gprpp/map.h
  (grpc_core::Map<Key, T, Compare>).

  Shallow embedding notes:
  * `Entry` mirrors `struct Entry { value_type pair; Entry* left; Entry* right;
    int32_t height; }`; the null pointer is the `nil` constructor.  Cached
    heights are `Int` (an `int32_t` height would require astronomically many
    nodes to overflow, so no wraparound is modelled).
  * The comparator is a `LinearOrder` on the key type; `CompareKeys` derives
    the 3-way result from two boolean `<` tests exactly as the source does.
  * Pointer-mutating code is translated to pure state passing: each function
    returns the new subtree root, as the source's recursive helpers do via
    their return values.  An iterator is observed through the pair it
    dereferences to (`Option (K × V)`, `none` = end iterator); the
    pointer-identity facet of iterators is modelled separately by `IterRep`
    with allocation addresses.
  * `size_t size_` is a `Nat`; the single decrement `size_--` happens only
    when a valid (non-end) iterator is erased, where `size_ ≥ 1` on states
    satisfying the data-structure invariant, so no wraparound is modelled.
-/
import Mathlib

set_option linter.unusedSectionVars false
set_option linter.unusedVariables false

namespace GrpcMap

/-- A tree entry: `struct Entry` from map.h.  `nil` is the null pointer. -/
inductive Entry (K V : Type) where
  | nil : Entry K V
  | node (pair : K × V) (left : Entry K V) (right : Entry K V) (height : Int) : Entry K V
deriving DecidableEq

variable {K V : Type} [LinearOrder K]

/-- `EntryHeight`: `e == nullptr ? 0 : e->height`. -/
def EntryHeight : Entry K V → Int
  | .nil => 0
  | .node _ _ _ h => h

/-- `CompareKeys`: two calls of the boolean comparator, 0 if neither is less,
    else -1 / 1 according to the first test. -/
def CompareKeys (lhs rhs : K) : Int :=
  if ¬ lhs < rhs ∧ ¬ rhs < lhs then 0
  else if lhs < rhs then -1 else 1

/-- In-order traversal of the stored pairs (the mathematical contents of the
    tree, used to state the specifications). -/
def inorder : Entry K V → List (K × V)
  | .nil => []
  | .node q l r _ => inorder l ++ q :: inorder r

/-- The keys stored in a tree, in order. -/
def keys (t : Entry K V) : List K := (inorder t).map Prod.fst

/-- Number of nodes reachable from a root. -/
def count : Entry K V → Nat
  | .nil => 0
  | .node _ l r _ => count l + count r + 1

/-- The true height of a tree (not the cached field). -/
def realHeight : Entry K V → Nat
  | .nil => 0
  | .node _ l r _ => 1 + max (realHeight l) (realHeight r)

/-- The pair stored at the leftmost node of the tree `node q l _ _`:
    the loop of `GetMinEntry` (`while (e->left != nullptr) e = e->left`). -/
def minPair (q : K × V) : Entry K V → K × V
  | .nil => q
  | .node lq ll _ _ => minPair lq ll

/-- `GetMinEntry` observed through the pair the returned pointer holds. -/
def GetMinEntry : Entry K V → Option (K × V)
  | .nil => none
  | .node q l _ _ => some (minPair q l)

/-- The root-to-key descent of `InOrderSuccessor` (the `while` loop over
    `root_` recording the last ancestor reached via a left turn in `acc`). -/
def succDescend (t : Entry K V) (k : K) (acc : Option (K × V)) : Option (K × V) :=
  match t with
  | .nil => acc
  | .node q l r _ =>
    if 0 < CompareKeys q.1 k then succDescend l k (some q)
    else if CompareKeys q.1 k < 0 then succDescend r k acc
    else acc

/-- `InOrderSuccessor(e)` for a node with key `k` and right subtree `r`
    inside the tree rooted at `full`: minimum of `r` when `r` is non-null,
    otherwise the re-descent from the map root. -/
def InOrderSuccessorPair (full : Entry K V) (k : K) (r : Entry K V) : Option (K × V) :=
  match r with
  | .node rq rl _ _ => some (minPair rq rl)
  | .nil => succDescend full k none

/-- The node-locating loop of `Map::find` (returns the subtree rooted at the
    node the returned `Entry*` points to; `nil` for the end iterator). -/
def findSubtree (t : Entry K V) (k : K) : Entry K V :=
  match t with
  | .nil => .nil
  | .node q l r h =>
    if CompareKeys q.1 k = 0 then .node q l r h
    else if CompareKeys q.1 k < 0 then findSubtree r k
    else findSubtree l k

/-- `RotateLeft` (callers guarantee `e` and `e->right` are non-null;
    the fallthrough case is the null dereference and is never reached). -/
def RotateLeft : Entry K V → Entry K V
  | .node q l (.node rq rl rr _) _ =>
    let e := Entry.node q l rl (1 + max (EntryHeight l) (EntryHeight rl))
    Entry.node rq e rr (1 + max (EntryHeight e) (EntryHeight rr))
  | e => e

/-- `RotateRight` (callers guarantee `e` and `e->left` are non-null). -/
def RotateRight : Entry K V → Entry K V
  | .node q (.node lq ll lr _) r _ =>
    let e := Entry.node q lr r (1 + max (EntryHeight lr) (EntryHeight r))
    Entry.node lq ll e (1 + max (EntryHeight ll) (EntryHeight e))
  | e => e

/-- `root->left->pair.first` compared with `k`; the `nil` case is the
    source's null dereference, unreachable because the guard `hd > 1`
    (resp. `hd < -1`) forces a non-null child under height correctness. -/
def childKeyCmp (e : Entry K V) (k : K) : Int :=
  match e with
  | .nil => 0
  | .node q _ _ _ => CompareKeys q.1 k

/-- `EntryHeight(c->left) - EntryHeight(c->right)`; `nil` unreachable
    (null dereference in the source). -/
def childBalance : Entry K V → Int
  | .nil => 0
  | .node _ l r _ => EntryHeight l - EntryHeight r

/-- `RebalanceTreeAfterInsertion`: recompute the height, then pick the
    rotation case from the balance and the inserted key's side. -/
def RebalanceTreeAfterInsertion (root : Entry K V) (k : K) : Entry K V :=
  match root with
  | .nil => .nil
  | .node q l r _ =>
    let h : Int := 1 + max (EntryHeight l) (EntryHeight r)
    let hd : Int := EntryHeight l - EntryHeight r
    if 1 < hd ∧ 0 < childKeyCmp l k then RotateRight (.node q l r h)
    else if hd < -1 ∧ childKeyCmp r k < 0 then RotateLeft (.node q l r h)
    else if 1 < hd ∧ childKeyCmp l k < 0 then RotateRight (.node q (RotateLeft l) r h)
    else if hd < -1 ∧ 0 < childKeyCmp r k then RotateLeft (.node q l (RotateRight r) h)
    else .node q l r h

/-- `RebalanceTreeAfterDeletion`: recompute the height, then pick the
    rotation case from the heavy child's own balance. -/
def RebalanceTreeAfterDeletion (root : Entry K V) : Entry K V :=
  match root with
  | .nil => .nil
  | .node q l r _ =>
    let h : Int := 1 + max (EntryHeight l) (EntryHeight r)
    let hd : Int := EntryHeight l - EntryHeight r
    if 1 < hd then
      if childBalance l < 0 then RotateRight (.node q (RotateLeft l) r h)
      else RotateRight (.node q l r h)
    else if hd < -1 then
      if 0 < childBalance r then RotateLeft (.node q l (RotateRight r) h)
      else RotateLeft (.node q l r h)
    else .node q l r h

/-- `InsertRecursive`: returns (pair the returned iterator dereferences to,
    new subtree root).  In the equal case the source executes
    `root->pair = std::move(p)`, replacing the whole stored pair. -/
def InsertRecursive (root : Entry K V) (p : K × V) : (K × V) × Entry K V :=
  match root with
  | .nil => (p, .node p .nil .nil 1)
  | .node q l r h =>
    if 0 < CompareKeys q.1 p.1 then
      let ret := InsertRecursive l p
      (ret.1, RebalanceTreeAfterInsertion (.node q ret.2 r h) ret.1.1)
    else if CompareKeys q.1 p.1 < 0 then
      let ret := InsertRecursive r p
      (ret.1, RebalanceTreeAfterInsertion (.node q l ret.2 h) ret.1.1)
    else
      (p, .node p l r h)

/-- Models the in-place `root->pair.swap(entry->pair)` where `entry` is the
    minimum node of this subtree: the subtree with the pair at its leftmost
    node replaced by `p` (the keys/values of all other nodes are untouched,
    as pointer relinking never copies nodes). -/
def SwapIntoMin (t : Entry K V) (p : K × V) : Entry K V :=
  match t with
  | .nil => .nil
  | .node q l r h =>
    match l with
    | .nil => .node p .nil r h
    | .node lq ll lr lh => .node q (SwapIntoMin (.node lq ll lr lh) p) r h

theorem count_SwapIntoMin (t : Entry K V) (p : K × V) :
    count (SwapIntoMin t p) = count t := by
  induction t with
  | nil => rfl
  | node q l r h ihl ihr =>
    cases l with
    | nil => simp [SwapIntoMin, count]
    | node lq ll lr lh => simp [SwapIntoMin, count, ihl]

/-- `RemoveRecursive`: returns (pair the returned iterator dereferences to,
    new subtree root).  `full` is the map's `root_`, consulted by
    `InOrderSuccessor`.  In the two-children case the source swaps the
    victim's pair with the successor node's pair and deletes the successor's
    (now victim-keyed) node from the right subtree; the iterator produced by
    that inner call is overwritten by `iterator(this, root)`, whose node then
    holds the successor's pair.  (During the inner call the source's `root_`
    sees the pair-swapped tree; since the inner iterator is discarded, passing
    `full` unchanged is observationally identical.)  The first two found
    cases return the replacement child directly, without rebalancing, exactly
    as the early `return`s in the source do. -/
def RemoveRecursive (full : Entry K V) (root : Entry K V) (k : K) :
    Option (K × V) × Entry K V :=
  match root with
  | .nil => (none, .nil)
  | .node q l r h =>
    if 0 < CompareKeys q.1 k then
      let ret := RemoveRecursive full l k
      (ret.1, RebalanceTreeAfterDeletion (.node q ret.2 r h))
    else if CompareKeys q.1 k < 0 then
      let ret := RemoveRecursive full r k
      (ret.1, RebalanceTreeAfterDeletion (.node q l ret.2 h))
    else
      let successor := InOrderSuccessorPair full q.1 r
      match l, r with
      | .nil, _ => (successor, r)
      | .node lq ll lr lh, .nil => (successor, .node lq ll lr lh)
      | .node lq ll lr lh, .node rq rl rr rh =>
        let sp := minPair rq rl
        let inner := RemoveRecursive full (SwapIntoMin (.node rq rl rr rh) q) q.1
        (some sp,
          RebalanceTreeAfterDeletion (.node sp (.node lq ll lr lh) inner.2 h))
termination_by count root
decreasing_by
  · simp [count]; omega
  · simp [count]; omega
  · simp [count, count_SwapIntoMin]; omega

/-- The map object: `Entry* root_; size_t size_;`. -/
structure Map (K V : Type) where
  root : Entry K V
  size : Nat
deriving DecidableEq

/-- The default-constructed map (`root_ = nullptr, size_ = 0`). -/
def Map.init : Map K V := ⟨.nil, 0⟩

/-- `Map::find`, observed through the pair the iterator dereferences to. -/
def Map.find (m : Map K V) (k : K) : Option (K × V) :=
  match findSubtree m.root k with
  | .nil => none
  | .node q _ _ _ => some q

/-- `Map::emplace`: find first; only when absent insert and bump the size.
    Result: ((pair at the returned iterator, insertion flag), new map). -/
def Map.emplace (m : Map K V) (p : K × V) : ((K × V) × Bool) × Map K V :=
  match m.find p.1 with
  | some q => ((q, false), m)
  | none =>
    let ret := InsertRecursive m.root p
    ((ret.1, true), ⟨ret.2, m.size + 1⟩)

/-- `Map::insert` forwards to `emplace`. -/
def Map.insert (m : Map K V) (p : K × V) : ((K × V) × Bool) × Map K V :=
  m.emplace p

/-- `Map::erase(iterator)`: no-op on the end iterator, otherwise remove the
    entry the iterator points at (keyed by `iter->first`) and decrement the
    size.  Returns (the successor iterator, the new map). -/
def Map.eraseIter (m : Map K V) (it : Option (K × V)) :
    Option (K × V) × Map K V :=
  match it with
  | none => (none, m)
  | some q =>
    let ret := RemoveRecursive m.root m.root q.1
    (ret.1, ⟨ret.2, m.size - 1⟩)

/-- `Map::erase(key)`: find, 0 when absent, otherwise erase the iterator. -/
def Map.eraseKey (m : Map K V) (k : K) : Nat × Map K V :=
  match m.find k with
  | none => (0, m)
  | some q => (1, (m.eraseIter (some q)).2)

/-- `Map::empty`: `root_ == nullptr`. -/
def Map.empty (m : Map K V) : Bool :=
  match m.root with
  | .nil => true
  | _ => false

/-- `Map::begin`: iterator at `GetMinEntry(root_)`. -/
def Map.begin (m : Map K V) : Option (K × V) := GetMinEntry m.root

/-- `iterator::operator++`: `curr_ = map_->InOrderSuccessor(curr_)`.  The
    iterator's node is the unique node holding its key (located by the same
    descent `find` performs); a dangling position is the source's undefined
    behaviour and yields `none` here. -/
def Map.iterSucc (m : Map K V) (k : K) : Option (K × V) :=
  match findSubtree m.root k with
  | .node q _ r _ => InOrderSuccessorPair m.root q.1 r
  | .nil => none

/-- The sequence of pairs visited from a given iterator by repeated
    `operator++` until `end()`.  The fuel bounds the observation (the C++
    loop itself has no bound); `size + 1` steps suffice on states satisfying
    the data-structure invariant. -/
def iterFrom (m : Map K V) : Option (K × V) → Nat → List (K × V)
  | _, 0 => []
  | none, _ => []
  | some p, fuel + 1 => p :: iterFrom m (m.iterSucc p.1) fuel

/-- The full `begin()`..`end()` iteration sequence of a map. -/
def Map.iterList (m : Map K V) : List (K × V) :=
  iterFrom m m.begin (m.size + 1)

/-- `Map::lower_bound`: `std::find_if(begin(), end(), ¬ compare(v.first, k))`,
    a linear scan over the iteration order. -/
def Map.lower_bound (m : Map K V) (k : K) : Option (K × V) :=
  m.iterList.find? fun v => ! decide (v.1 < k)

/-- Modelled from the spec: the O(log n) tree-descent lower bound the spec
    names as the semantically-equal reference for `lower_bound` ("first entry
    whose key is not less than k", found by descending the tree).  This is
    the refinement claim's spec-side definition, not source code. -/
def lowerBoundDescentSpec : Entry K V → K → Option (K × V)
  | .nil, _ => none
  | .node q l r _, k =>
    if q.1 < k then lowerBoundDescentSpec r k
    else match lowerBoundDescentSpec l k with
      | some x => some x
      | none => some q

/-- `Map::operator[]` with `dflt` standing for the default-constructed `T()`:
    find; when absent emplace `(key, T())`; return the mapped value (and the
    possibly-updated map). -/
def Map.opIndex (m : Map K V) (k : K) (dflt : V) : V × Map K V :=
  match m.find k with
  | none =>
    let r := m.emplace (k, dflt)
    (r.1.1.2, r.2)
  | some q => (q.2, m)

/-- The loop body of `Map::clear`: `while (!empty()) iter = erase(iter);`,
    fueled (the C++ loop has no bound; `size + 1` steps suffice on states
    satisfying the data-structure invariant). -/
def Map.clearLoop : Nat → Map K V → Option (K × V) → Map K V
  | 0, m, _ => m
  | fuel + 1, m, it =>
    match m.root with
    | .nil => m
    | .node _ _ _ _ =>
      let r := m.eraseIter it
      Map.clearLoop fuel r.2 r.1

/-- `Map::clear`: repeatedly erase starting from `begin()` until empty. -/
def Map.clear (m : Map K V) : Map K V :=
  Map.clearLoop (m.size + 1) m m.begin

/-- Move construction: the target steals `root_`/`size_`, the source is left
    null/0.  Returns (constructed target, source afterwards). -/
def Map.moveConstruct (m : Map K V) : Map K V × Map K V :=
  (⟨m.root, m.size⟩, ⟨.nil, 0⟩)

/-- Move assignment `target = std::move(m)` (for `&target ≠ &m`): the target
    is cleared and steals `m`'s guts; `m` is left null/0.
    Returns (target afterwards, source afterwards). -/
def Map.moveAssign (_target m : Map K V) : Map K V × Map K V :=
  (⟨m.root, m.size⟩, ⟨.nil, 0⟩)

/-! ## Data-structure invariants -/

/-- `p` holds of every key stored in the tree. -/
def AllKeys (p : K → Prop) : Entry K V → Prop
  | .nil => True
  | .node q l r _ => p q.1 ∧ AllKeys p l ∧ AllKeys p r

/-- BST order at every node: left keys strictly below, right keys strictly
    above the node's key, per the comparator. -/
def Ordered : Entry K V → Prop
  | .nil => True
  | .node q l r _ =>
      Ordered l ∧ Ordered r ∧ AllKeys (· < q.1) l ∧ AllKeys (q.1 < ·) r

/-- Every cached height equals `1 + max` of the children's cached heights. -/
def HeightsOk : Entry K V → Prop
  | .nil => True
  | .node _ l r h =>
      HeightsOk l ∧ HeightsOk r ∧ h = 1 + max (EntryHeight l) (EntryHeight r)

/-- AVL balance at every node: child subtree heights differ by at most 1. -/
def Balanced : Entry K V → Prop
  | .nil => True
  | .node _ l r _ =>
      Balanced l ∧ Balanced r ∧
      realHeight l ≤ realHeight r + 1 ∧ realHeight r ≤ realHeight l + 1

/-- The full documented invariant of a map object. -/
def Inv (m : Map K V) : Prop :=
  Ordered m.root ∧ HeightsOk m.root ∧ Balanced m.root ∧ m.size = count m.root

instance AllKeys.instDecidable (p : K → Prop) [DecidablePred p] :
    (t : Entry K V) → Decidable (AllKeys p t)
  | .nil => .isTrue trivial
  | .node q l r h =>
    have := AllKeys.instDecidable p l
    have := AllKeys.instDecidable p r
    decidable_of_iff (p q.1 ∧ AllKeys p l ∧ AllKeys p r) Iff.rfl

instance Ordered.instDecidable :
    (t : Entry K V) → Decidable (Ordered t)
  | .nil => .isTrue trivial
  | .node q l r h =>
    have := Ordered.instDecidable l
    have := Ordered.instDecidable r
    decidable_of_iff
      (Ordered l ∧ Ordered r ∧ AllKeys (· < q.1) l ∧ AllKeys (q.1 < ·) r)
      Iff.rfl

instance HeightsOk.instDecidable :
    (t : Entry K V) → Decidable (HeightsOk t)
  | .nil => .isTrue trivial
  | .node q l r h =>
    have := HeightsOk.instDecidable l
    have := HeightsOk.instDecidable r
    decidable_of_iff
      (HeightsOk l ∧ HeightsOk r ∧ h = 1 + max (EntryHeight l) (EntryHeight r))
      Iff.rfl

instance Balanced.instDecidable :
    (t : Entry K V) → Decidable (Balanced t)
  | .nil => .isTrue trivial
  | .node q l r h =>
    have := Balanced.instDecidable l
    have := Balanced.instDecidable r
    decidable_of_iff
      (Balanced l ∧ Balanced r ∧
        realHeight l ≤ realHeight r + 1 ∧ realHeight r ≤ realHeight l + 1)
      Iff.rfl

instance Inv.instDecidable (m : Map K V) : Decidable (Inv m) := by
  unfold Inv; infer_instance

/-- Map states reachable from the default-constructed map by the public
    operations (the `erase(iterator)` steps take a valid iterator of this
    map, i.e. a `find` result, or the end iterator). -/
inductive Reachable : Map K V → Prop where
  | init : Reachable Map.init
  | emplace (m : Map K V) (p : K × V) : Reachable m → Reachable (m.emplace p).2
  | eraseKey (m : Map K V) (k : K) : Reachable m → Reachable (m.eraseKey k).2
  | eraseIterFind (m : Map K V) (k : K) :
      Reachable m → Reachable (m.eraseIter (m.find k)).2
  | eraseIterEnd (m : Map K V) : Reachable m → Reachable (m.eraseIter none).2
  | opIndex (m : Map K V) (k : K) (d : V) :
      Reachable m → Reachable (m.opIndex k d).2
  | clearStep (m : Map K V) : Reachable m → Reachable m.clear
  | moveTarget (m : Map K V) : Reachable m → Reachable m.moveConstruct.1
  | moveSource (m : Map K V) : Reachable m → Reachable m.moveConstruct.2
  | moveAssignTarget (tgt m : Map K V) :
      Reachable m → Reachable (Map.moveAssign tgt m).1
  | moveAssignSource (tgt m : Map K V) :
      Reachable m → Reachable (Map.moveAssign tgt m).2

/-! ## Iterator representation (pointer identity)

`iterator` stores `Entry* curr_; GrpcMap* map_;`.  Addresses of live nodes
are modelled as natural numbers (distinct live allocations have distinct
addresses); `curr_ = nullptr` is `none`.  The map identity is carried in
`mapId` but — exactly as in the source — plays no part in `operator==`. -/

structure IterRep where
  curr : Option Nat
  mapId : Nat
deriving DecidableEq

/-- `iterator::operator==`: compares `curr_` only. -/
def iterEq (a b : IterRep) : Bool := a.curr == b.curr

/-- `Map::end()`: `iterator(this, nullptr)`. -/
def endIter (mapId : Nat) : IterRep := ⟨none, mapId⟩

/-- The in-order successor of key `k` in a tree, specified on the traversal:
    the first in-order entry whose key exceeds `k` (`none` if `k` is the
    maximum). -/
def succPair (t : Entry K V) (k : K) : Option (K × V) :=
  (inorder t).find? fun x => decide (k < x.1)

/-- The balance-direction property a freshly grown (height +1, height ≥ 2)
    subtree root satisfies after `InsertRecursive` of key `k`: it is strictly
    heavy on the side the new key went. -/
def BfProp (k : K) : Entry K V → Prop
  | .nil => False
  | .node q l r _ =>
      ((realHeight l : Int) - realHeight r ≠ 0) ∧
      (0 < (realHeight l : Int) - realHeight r → k < q.1) ∧
      ((realHeight l : Int) - realHeight r < 0 → q.1 < k)

/-- Sorted insertion of a pair into an in-order listing (specification
    helper for the effect of an insert on the traversal). -/
def insertInorder (p : K × V) : List (K × V) → List (K × V)
  | [] => [p]
  | x :: xs => if p.1 < x.1 then p :: x :: xs else x :: insertInorder p xs

/-! ## Basic lemmas about the comparator -/

theorem CompareKeys_eq_zero_iff {a b : K} : CompareKeys a b = 0 ↔ a = b := by
  rcases lt_trichotomy a b with h | h | h
  · simp [CompareKeys, h, h.ne]
  · subst h; simp [CompareKeys, lt_irrefl]
  · simp [CompareKeys, h, lt_asymm h, h.ne']

theorem CompareKeys_neg_iff {a b : K} : CompareKeys a b < 0 ↔ a < b := by
  rcases lt_trichotomy a b with h | h | h
  · simp [CompareKeys, h]
  · subst h; simp [CompareKeys, lt_irrefl]
  · simp [CompareKeys, h, lt_asymm h]

theorem CompareKeys_pos_iff {a b : K} : 0 < CompareKeys a b ↔ b < a := by
  rcases lt_trichotomy a b with h | h | h
  · simp [CompareKeys, h, lt_asymm h]
  · subst h; simp [CompareKeys, lt_irrefl]
  · simp [CompareKeys, h, lt_asymm h]

/-! ## Basic lemmas about traversal, counting and heights -/

theorem EntryHeight_node (q : K × V) (l r : Entry K V) (h : Int) :
    EntryHeight (.node q l r h) = h := rfl

theorem length_inorder (t : Entry K V) : (inorder t).length = count t := by
  induction t with
  | nil => simp [inorder, count]
  | node q l r h ihl ihr => simp [inorder, count, ihl, ihr]; omega

theorem count_eq_zero_iff {t : Entry K V} : count t = 0 ↔ t = .nil := by
  cases t <;> simp [count]

theorem AllKeys_iff {p : K → Prop} {t : Entry K V} :
    AllKeys p t ↔ ∀ x ∈ inorder t, p x.1 := by
  induction t with
  | nil => simp [AllKeys, inorder]
  | node q l r h ihl ihr =>
    simp only [AllKeys, inorder, List.mem_append, List.mem_cons, ihl, ihr]
    constructor
    · rintro ⟨hq, hl, hr⟩ x hx
      rcases hx with hx | rfl | hx
      · exact hl x hx
      · exact hq
      · exact hr x hx
    · intro h
      exact ⟨h q (Or.inr (Or.inl rfl)),
        fun x hx => h x (Or.inl hx),
        fun x hx => h x (Or.inr (Or.inr hx))⟩

theorem ordered_iff_pairwise {t : Entry K V} :
    Ordered t ↔ (inorder t).Pairwise (fun a b => a.1 < b.1) := by
  induction t with
  | nil => simp [Ordered, inorder]
  | node q l r h ihl ihr =>
    simp only [Ordered, inorder, List.pairwise_append, List.pairwise_cons,
      List.mem_cons, ihl, ihr, AllKeys_iff]
    constructor
    · rintro ⟨hl, hr, hlt, hgt⟩
      refine ⟨hl, ⟨fun b hb => hgt b hb, hr⟩, ?_⟩
      rintro a ha b (rfl | hb)
      · exact hlt a ha
      · exact (hlt a ha).trans (hgt b hb)
    · rintro ⟨hl, ⟨hq, hr⟩, hcross⟩
      exact ⟨hl, hr, fun a ha => hcross a ha q (Or.inl rfl), hq⟩

theorem nodup_keys_of_ordered {t : Entry K V} (h : Ordered t) :
    (keys t).Pairwise (· < ·) := by
  rw [ordered_iff_pairwise] at h
  exact (List.pairwise_map).mpr h

theorem EntryHeight_eq {t : Entry K V} (ht : HeightsOk t) :
    EntryHeight t = (realHeight t : Int) := by
  induction t with
  | nil => simp [EntryHeight, realHeight]
  | node q l r h ihl ihr =>
    obtain ⟨hl, hr, hh⟩ := ht
    show h = (realHeight (Entry.node q l r h) : Int)
    rw [hh, ihl hl, ihr hr]
    simp only [realHeight]
    push_cast
    rfl

theorem inorder_minPair_cons (q : K × V) (l r : Entry K V) (h : Int) :
    ∃ tl, inorder (Entry.node q l r h) = minPair q l :: tl := by
  induction l generalizing q r h with
  | nil => exact ⟨inorder r, by simp [inorder, minPair]⟩
  | node lq ll lr lh ihll ihlr =>
    obtain ⟨tl, htl⟩ := ihll lq (Entry.node q lr r h) 0
    refine ⟨tl, ?_⟩
    simp only [inorder, minPair, List.append_assoc, List.cons_append] at htl ⊢
    exact htl

theorem GetMinEntry_eq_head (t : Entry K V) :
    GetMinEntry t = (inorder t).head? := by
  cases t with
  | nil => rfl
  | node q l r h =>
    obtain ⟨tl, htl⟩ := inorder_minPair_cons q l r h
    simp [GetMinEntry, htl]

theorem mem_keys {t : Entry K V} {k : K} :
    k ∈ keys t ↔ ∃ v, (k, v) ∈ inorder t := by
  simp only [keys, List.mem_map]
  constructor
  · rintro ⟨⟨a, b⟩, hm, rfl⟩; exact ⟨b, hm⟩
  · rintro ⟨v, hv⟩; exact ⟨(k, v), hv, rfl⟩

/-! ## `find` locates the unique node with the sought key -/

theorem findSubtree_spec {t : Entry K V} (ht : Ordered t) {k : K}
    {q : K × V} {l r : Entry K V} {h : Int}
    (hf : findSubtree t k = .node q l r h) :
    q.1 = k ∧ ∃ A B, inorder t = A ++ (inorder l ++ q :: inorder r) ++ B ∧
      (∀ x ∈ A, x.1 < k) ∧ (∀ x ∈ B, k < x.1) := by
  induction t with
  | nil => simp [findSubtree] at hf
  | node tq tl tr th ihl ihr =>
    obtain ⟨hol, hor, hlt, hgt⟩ := ht
    rw [AllKeys_iff] at hlt hgt
    by_cases h0 : CompareKeys tq.1 k = 0
    · rw [findSubtree, if_pos h0] at hf
      rw [Entry.node.injEq] at hf
      obtain ⟨rfl, rfl, rfl, rfl⟩ := hf
      refine ⟨CompareKeys_eq_zero_iff.mp h0, [], [], by simp [inorder], ?_, ?_⟩ <;> simp
    · by_cases hneg : CompareKeys tq.1 k < 0
      · rw [findSubtree, if_neg h0, if_pos hneg] at hf
        obtain ⟨hqk, A, B, hdec, hA, hB⟩ := ihr hor hf
        have htqk : tq.1 < k := CompareKeys_neg_iff.mp hneg
        refine ⟨hqk, inorder tl ++ tq :: A, B, ?_, ?_, hB⟩
        · simp [inorder, hdec]
        · intro x hx
          rcases List.mem_append.mp hx with hx | hx
          · exact (hlt x hx).trans htqk
          · rcases List.mem_cons.mp hx with rfl | hx
            · exact htqk
            · exact hA x hx
      · rw [findSubtree, if_neg h0, if_neg hneg] at hf
        obtain ⟨hqk, A, B, hdec, hA, hB⟩ := ihl hol hf
        have hktq : k < tq.1 := by
          rcases lt_trichotomy (CompareKeys tq.1 k) 0 with hc | hc | hc
          · exact absurd hc hneg
          · exact absurd hc h0
          · exact CompareKeys_pos_iff.mp hc
        refine ⟨hqk, A, B ++ tq :: inorder tr, ?_, hA, ?_⟩
        · simp [inorder, hdec]
        · intro x hx
          rcases List.mem_append.mp hx with hx | hx
          · exact hB x hx
          · rcases List.mem_cons.mp hx with rfl | hx
            · exact hktq
            · exact hktq.trans (hgt x hx)

theorem findSubtree_ne_nil_of_mem {t : Entry K V} (ht : Ordered t) {k : K}
    (hk : k ∈ keys t) : findSubtree t k ≠ .nil := by
  induction t with
  | nil => simp [keys, inorder] at hk
  | node q l r h ihl ihr =>
    obtain ⟨hol, hor, hlt, hgt⟩ := ht
    rw [AllKeys_iff] at hlt hgt
    obtain ⟨v, hv⟩ := mem_keys.mp hk
    rw [inorder, List.mem_append, List.mem_cons] at hv
    by_cases h0 : CompareKeys q.1 k = 0
    · rw [findSubtree, if_pos h0]; intro hc; cases hc
    · by_cases hneg : CompareKeys q.1 k < 0
      · rw [findSubtree, if_neg h0, if_pos hneg]
        have hqk : q.1 < k := CompareKeys_neg_iff.mp hneg
        refine ihr hor (mem_keys.mpr ⟨v, ?_⟩)
        rcases hv with hv | hv | hv
        · exact absurd (hlt _ hv) (by simp; exact hqk.le)
        · exact absurd (congrArg Prod.fst hv).symm hqk.ne
        · exact hv
      · rw [findSubtree, if_neg h0, if_neg hneg]
        have hkq : k < q.1 := by
          rcases lt_trichotomy (CompareKeys q.1 k) 0 with hc | hc | hc
          · exact absurd hc hneg
          · exact absurd hc h0
          · exact CompareKeys_pos_iff.mp hc
        refine ihl hol (mem_keys.mpr ⟨v, ?_⟩)
        rcases hv with hv | hv | hv
        · exact hv
        · exact absurd (congrArg Prod.fst hv).symm hkq.ne'
        · exact absurd (hgt _ hv) (by simp; exact hkq.le)

theorem pairwise_key_unique {l : List (K × V)}
    (h : l.Pairwise (fun a b => a.1 < b.1))
    {p q : K × V} (hp : p ∈ l) (hq : q ∈ l) (hk : p.1 = q.1) : p = q := by
  induction l with
  | nil => cases hp
  | cons x xs ih =>
    rcases List.pairwise_cons.mp h with ⟨hx, hxs⟩
    rcases List.mem_cons.mp hp with rfl | hp'
    · rcases List.mem_cons.mp hq with rfl | hq'
      · rfl
      · exact absurd (hx q hq') (by rw [← hk]; exact lt_irrefl _)
    · rcases List.mem_cons.mp hq with rfl | hq'
      · exact absurd (hx p hp') (by rw [hk]; exact lt_irrefl _)
      · exact ih hxs hp' hq'

theorem pair_unique_of_ordered {t : Entry K V} (ht : Ordered t)
    {p q : K × V} (hp : p ∈ inorder t) (hq : q ∈ inorder t) (hk : p.1 = q.1) :
    p = q :=
  pairwise_key_unique (ordered_iff_pairwise.mp ht) hp hq hk

theorem find_mem {m : Map K V} (ht : Ordered m.root) {k : K} {q : K × V}
    (hf : m.find k = some q) : q.1 = k ∧ q ∈ inorder m.root := by
  rw [Map.find] at hf
  rcases hfs : findSubtree m.root k with _ | ⟨q', l, r, h⟩
  · rw [hfs] at hf; cases hf
  · rw [hfs] at hf
    obtain ⟨hqk, A, B, hdec, _, _⟩ := findSubtree_spec ht hfs
    have : q = q' := by cases hf; rfl
    subst this
    exact ⟨hqk, by rw [hdec]; simp⟩

theorem find_eq_none_iff {m : Map K V} (ht : Ordered m.root) {k : K} :
    m.find k = none ↔ k ∉ keys m.root := by
  constructor
  · intro hf hk
    have := findSubtree_ne_nil_of_mem ht hk
    rw [Map.find] at hf
    rcases hfs : findSubtree m.root k with _ | ⟨q', l, r, h⟩
    · exact this hfs
    · rw [hfs] at hf; cases hf
  · intro hk
    rw [Map.find]
    rcases hfs : findSubtree m.root k with _ | ⟨q', l, r, h⟩
    · rfl
    · obtain ⟨hqk, A, B, hdec, _, _⟩ := findSubtree_spec ht hfs
      exact absurd (mem_keys.mpr ⟨q'.2, by rw [hdec]; simp [← hqk]⟩) hk

theorem find_eq_of_mem {m : Map K V} (ht : Ordered m.root) {k : K} {v : V}
    (hv : (k, v) ∈ inorder m.root) : m.find k = some (k, v) := by
  rcases hf : m.find k with _ | q
  · exact absurd (mem_keys.mpr ⟨v, hv⟩) ((find_eq_none_iff ht).mp hf)
  · obtain ⟨hqk, hqmem⟩ := find_mem ht hf
    have := pair_unique_of_ordered ht hqmem hv (by simp [hqk])
    rw [this]

/-! ## List.find? helpers -/

theorem find?_append_false {α : Type} {p : α → Bool} {A L : List α}
    (h : ∀ x ∈ A, p x = false) : (A ++ L).find? p = L.find? p := by
  induction A with
  | nil => rfl
  | cons a as ih =>
    rw [List.cons_append, List.find?_cons_of_neg _ (by simp [h a (by simp)])]
    exact ih fun x hx => h x (by simp [hx])

theorem find?_eq_head_of_first {α : Type} {p : α → Bool} {L : List α}
    (h : ∀ x ∈ L, p x = true) : L.find? p = L.head? := by
  cases L with
  | nil => rfl
  | cons a as => rw [List.find?_cons_of_pos _ (h a (by simp)), List.head?_cons]

theorem find?_append_split {α : Type} (p : α → Bool) (A B : List α) :
    (A ++ B).find? p = match A.find? p with
      | some x => some x
      | none => B.find? p := by
  induction A with
  | nil => simp
  | cons a as ih =>
    by_cases h : p a
    · rw [List.cons_append, List.find?_cons_of_pos _ h, List.find?_cons_of_pos _ h]
    · rw [List.cons_append, List.find?_cons_of_neg _ (by simp [h]),
        List.find?_cons_of_neg _ (by simp [h]), ih]

/-! ## The in-order successor computation -/

theorem succPair_of_decomp {t : Entry K V} (ht : Ordered t) {k : K}
    {C D : List (K × V)} {q : K × V} (hq : q.1 = k)
    (hdec : inorder t = C ++ q :: D) :
    succPair t k = D.head? := by
  have hp := ordered_iff_pairwise.mp ht
  rw [hdec] at hp
  rw [List.pairwise_append] at hp
  obtain ⟨hC, hqD, hcross⟩ := hp
  rw [List.pairwise_cons] at hqD
  obtain ⟨hD, _⟩ := hqD
  rw [succPair, hdec, find?_append_false, List.find?_cons_of_neg,
    find?_eq_head_of_first]
  · intro x hx
    simp only [decide_eq_true_eq]
    exact hq ▸ hD x hx
  · simp [hq]
  · intro x hx
    simp only [decide_eq_false_iff_not, not_lt]
    exact le_of_lt (hq ▸ hcross x hx q (by simp))

theorem succDescend_spec {t : Entry K V} (ht : Ordered t) {k : K}
    {q : K × V} {l : Entry K V} {h : Int}
    (hf : findSubtree t k = .node q l .nil h) (acc : Option (K × V)) :
    succDescend t k acc = match succPair t k with
      | some x => some x
      | none => acc := by
  induction t generalizing acc with
  | nil => simp [findSubtree] at hf
  | node tq tl tr th ihl ihr =>
    obtain ⟨hol, hor, hlt, hgt⟩ := ht
    rw [AllKeys_iff] at hlt hgt
    rw [succPair, inorder]
    rcases lt_trichotomy (CompareKeys tq.1 k) 0 with hc | hc | hc
    · -- tq.1 < k: descend right, keeping acc
      have htqk : tq.1 < k := CompareKeys_neg_iff.mp hc
      rw [succDescend, if_neg (by omega), if_pos hc]
      rw [findSubtree, if_neg (by omega), if_pos hc] at hf
      rw [find?_append_false, List.find?_cons_of_neg]
      · exact ihr hor hf acc
      · simp [not_lt, htqk.le]
      · intro x hx
        simp only [decide_eq_false_iff_not, not_lt]
        exact ((hlt x hx).trans htqk).le
    · -- tq.1 = k: this is the sought node; its right subtree is nil
      have htq : tq.1 = k := CompareKeys_eq_zero_iff.mp hc
      rw [findSubtree, if_pos hc] at hf
      rw [Entry.node.injEq] at hf
      obtain ⟨rfl, rfl, htr, rfl⟩ := hf
      subst htr
      rw [succDescend, if_neg (by omega), if_neg (by omega)]
      rw [find?_append_false, List.find?_cons_of_neg]
      · simp [inorder]
      · simp [htq]
      · intro x hx
        simp only [decide_eq_false_iff_not, not_lt]
        exact (htq ▸ (hlt x hx)).le
    · -- k < tq.1: descend left, recording tq as candidate successor
      have hktq : k < tq.1 := CompareKeys_pos_iff.mp hc
      rw [succDescend, if_pos hc]
      rw [findSubtree, if_neg (by omega), if_neg (by omega)] at hf
      rw [find?_append_split]
      have := ihl hol hf (some tq)
      rw [succPair] at this
      rw [this]
      rcases hfind : List.find? (fun x => decide (k < x.1)) (inorder tl) with _ | x
      · rw [hfind, List.find?_cons_of_pos _ (by simp [hktq])]
      · rw [hfind]

theorem succPair_via_node {t : Entry K V} (ht : Ordered t) {k : K}
    {q : K × V} {l r : Entry K V} {h : Int}
    (hf : findSubtree t k = .node q l r h) :
    InOrderSuccessorPair t k r = succPair t k := by
  obtain ⟨hqk, A, B, hdec, hA, hB⟩ := findSubtree_spec ht hf
  cases r with
  | nil =>
    rw [InOrderSuccessorPair, succDescend_spec ht hf none]
    rcases succPair t k with _ | x <;> rfl
  | node rq rl rr rh =>
    rw [InOrderSuccessorPair]
    have hdec' : inorder t =
        (A ++ inorder l) ++ q :: (inorder (Entry.node rq rl rr rh) ++ B) := by
      rw [hdec]; simp [List.append_assoc]
    have hsp := succPair_of_decomp ht hqk hdec'
    obtain ⟨tl', htl'⟩ := inorder_minPair_cons rq rl rr rh
    rw [hsp, htl']
    rfl

/-! ## Iteration -/

theorem iterSucc_eq_succPair {m : Map K V} (ht : Ordered m.root)
    {p : K × V} (hp : p ∈ inorder m.root) :
    m.iterSucc p.1 = succPair m.root p.1 := by
  have hk : p.1 ∈ keys m.root := mem_keys.mpr ⟨p.2, by simpa using hp⟩
  have hne := findSubtree_ne_nil_of_mem ht hk
  rcases hfs : findSubtree m.root p.1 with _ | ⟨q, l, r, h⟩
  · exact absurd hfs hne
  · obtain ⟨hqk, _, _, _, _, _⟩ := findSubtree_spec ht hfs
    rw [Map.iterSucc, hfs]
    show InOrderSuccessorPair m.root q.1 r = succPair m.root p.1
    rw [hqk]
    exact succPair_via_node ht hfs

theorem iterFrom_none (m : Map K V) (fuel : Nat) :
    iterFrom m none fuel = [] := by
  cases fuel <;> rfl

theorem iterFrom_suffix {m : Map K V} (ht : Ordered m.root)
    {A B : List (K × V)} {p : K × V}
    (hdec : inorder m.root = A ++ p :: B) :
    ∀ fuel, B.length < fuel → iterFrom m (some p) fuel = p :: B := by
  induction B generalizing A p with
  | nil =>
    intro fuel hf
    cases fuel with
    | zero => omega
    | succ n =>
      rw [iterFrom]
      have hmem : p ∈ inorder m.root := by rw [hdec]; simp
      have hps := succPair_of_decomp ht rfl hdec
      have his : m.iterSucc p.1 = none := by
        rw [iterSucc_eq_succPair ht hmem, hps]; rfl
      rw [his, iterFrom_none]
  | cons b B' ih =>
    intro fuel hf
    cases fuel with
    | zero => omega
    | succ n =>
      rw [iterFrom]
      have hmem : p ∈ inorder m.root := by rw [hdec]; simp
      have hps := succPair_of_decomp ht rfl hdec
      have his : m.iterSucc p.1 = some b := by
        rw [iterSucc_eq_succPair ht hmem, hps]; rfl
      rw [his]
      congr 1
      exact ih (A := A ++ [p]) (by rw [hdec]; simp) n (by simp at hf ⊢; omega)

theorem iterList_eq_inorder {m : Map K V} (ht : Ordered m.root)
    (hsize : count m.root ≤ m.size) :
    m.iterList = inorder m.root := by
  rw [Map.iterList, Map.begin, GetMinEntry_eq_head]
  rcases hio : inorder m.root with _ | ⟨p, B⟩
  · rw [List.head?_nil, iterFrom_none]
  · rw [List.head?_cons]
    refine iterFrom_suffix ht (A := []) (by rw [hio]; rfl) _ ?_
    have := length_inorder m.root
    rw [hio] at this
    simp at this
    omega

/-! ## Rebalancing after insertion -/

theorem rebalance_insert_left {q : K × V} {l' r : Entry K V} {k : K} {s : Int}
    (hokl : HeightsOk l') (hokr : HeightsOk r)
    (hbl : Balanced l') (hbr : Balanced r)
    (hlb : realHeight r ≤ realHeight l' + 1)
    (hbf : realHeight l' = realHeight r + 2 → BfProp k l') :
    (realHeight l' ≤ realHeight r + 1 →
      RebalanceTreeAfterInsertion (.node q l' r s) k =
        .node q l' r (1 + max (EntryHeight l') (EntryHeight r))) ∧
    (realHeight l' = realHeight r + 2 →
      inorder (RebalanceTreeAfterInsertion (.node q l' r s) k) =
        inorder l' ++ q :: inorder r ∧
      HeightsOk (RebalanceTreeAfterInsertion (.node q l' r s) k) ∧
      Balanced (RebalanceTreeAfterInsertion (.node q l' r s) k) ∧
      realHeight (RebalanceTreeAfterInsertion (.node q l' r s) k) =
        realHeight l') := by
  have hel := EntryHeight_eq hokl
  have her := EntryHeight_eq hokr
  constructor
  · intro hle
    simp only [RebalanceTreeAfterInsertion]
    rw [if_neg (by rintro ⟨hc, -⟩; rw [hel, her] at hc; omega),
      if_neg (by rintro ⟨hc, -⟩; rw [hel, her] at hc; omega),
      if_neg (by rintro ⟨hc, -⟩; rw [hel, her] at hc; omega),
      if_neg (by rintro ⟨hc, -⟩; rw [hel, her] at hc; omega)]
  · intro heq
    cases l' with
    | nil => simp [realHeight] at heq
    | node lq la lb lh =>
      obtain ⟨hbfne, hbfl, hbfr⟩ := hbf heq
      obtain ⟨hba, hbb, hd1, hd2⟩ := hbl
      obtain ⟨hokla, hoklb, hcl⟩ := hokl
      simp only [realHeight] at heq
      rcases lt_trichotomy ((realHeight la : Int) - realHeight lb) 0 with hbf0 | hbf0 | hbf0
      · -- right-heavy child: the inserted key went right of lq; double rotation
        have hk : lq.1 < k := hbfr hbf0
        have hcmp : CompareKeys lq.1 k < 0 := CompareKeys_neg_iff.mpr hk
        -- lb is non-nil: its height is realHeight r + 1 ≥ 1
        cases lb with
        | nil => simp only [realHeight] at hbf0; omega
        | node bq ba bb bh =>
          obtain ⟨hbba, hbbb, he1, he2⟩ := hbb
          obtain ⟨hokba, hokbb, hcb⟩ := hoklb
          simp only [realHeight] at heq hbf0 hd1 hd2
          simp only [RebalanceTreeAfterInsertion]
          rw [if_neg (by rintro ⟨-, hc⟩; simp only [childKeyCmp] at hc; omega),
            if_neg (by
              rintro ⟨hc, -⟩
              rw [hel, her] at hc
              simp only [realHeight] at hc
              omega),
            if_pos ⟨by rw [hel, her]; simp only [realHeight]; omega,
              by simp only [childKeyCmp]; exact hcmp⟩]
          simp only [RotateLeft, RotateRight]
          refine ⟨by simp [inorder], ?_, ?_, ?_⟩
          · exact ⟨⟨hokla, hokba, rfl⟩, ⟨hokbb, hokr, rfl⟩, rfl⟩
          · refine ⟨⟨hba, hbba, ?_, ?_⟩, ⟨hbbb, hbr, ?_, ?_⟩, ?_, ?_⟩ <;>
              (try simp only [realHeight]) <;> omega
          · simp only [realHeight]; omega
      · exact absurd (by omega) hbfne
      · -- left-heavy child: the inserted key went left of lq; single right rotation
        have hk : k < lq.1 := hbfl hbf0
        have hcmp : 0 < CompareKeys lq.1 k := CompareKeys_pos_iff.mpr hk
        simp only [RebalanceTreeAfterInsertion]
        rw [if_pos ⟨by rw [hel, her]; simp only [realHeight]; omega,
          by simp only [childKeyCmp]; exact hcmp⟩]
        simp only [RotateRight]
        refine ⟨by simp [inorder], ?_, ?_, ?_⟩
        · exact ⟨hokla, ⟨hoklb, hokr, rfl⟩, rfl⟩
        · refine ⟨hba, ⟨hbb, hbr, ?_, ?_⟩, ?_, ?_⟩ <;>
            (try simp only [realHeight]) <;> omega
        · simp only [realHeight]; omega

theorem rebalance_insert_right {q : K × V} {l r' : Entry K V} {k : K} {s : Int}
    (hokl : HeightsOk l) (hokr : HeightsOk r')
    (hbl : Balanced l) (hbr : Balanced r')
    (hlb : realHeight l ≤ realHeight r' + 1)
    (hbf : realHeight r' = realHeight l + 2 → BfProp k r') :
    (realHeight r' ≤ realHeight l + 1 →
      RebalanceTreeAfterInsertion (.node q l r' s) k =
        .node q l r' (1 + max (EntryHeight l) (EntryHeight r'))) ∧
    (realHeight r' = realHeight l + 2 →
      inorder (RebalanceTreeAfterInsertion (.node q l r' s) k) =
        inorder l ++ q :: inorder r' ∧
      HeightsOk (RebalanceTreeAfterInsertion (.node q l r' s) k) ∧
      Balanced (RebalanceTreeAfterInsertion (.node q l r' s) k) ∧
      realHeight (RebalanceTreeAfterInsertion (.node q l r' s) k) =
        realHeight r') := by
  have hel := EntryHeight_eq hokl
  have her := EntryHeight_eq hokr
  constructor
  · intro hle
    simp only [RebalanceTreeAfterInsertion]
    rw [if_neg (by rintro ⟨hc, -⟩; rw [hel, her] at hc; omega),
      if_neg (by rintro ⟨hc, -⟩; rw [hel, her] at hc; omega),
      if_neg (by rintro ⟨hc, -⟩; rw [hel, her] at hc; omega),
      if_neg (by rintro ⟨hc, -⟩; rw [hel, her] at hc; omega)]
  · intro heq
    cases r' with
    | nil => simp [realHeight] at heq
    | node rq ra rb rh =>
      obtain ⟨hbfne, hbfl, hbfr⟩ := hbf heq
      obtain ⟨hbaB, hbbB, hd1, hd2⟩ := hbr
      obtain ⟨hokra, hokrb, hcr⟩ := hokr
      simp only [realHeight] at heq
      rcases lt_trichotomy ((realHeight ra : Int) - realHeight rb) 0 with hbf0 | hbf0 | hbf0
      · -- right-heavy child: the inserted key went right of rq; single left rotation
        have hk : rq.1 < k := hbfr hbf0
        have hcmp : CompareKeys rq.1 k < 0 := CompareKeys_neg_iff.mpr hk
        simp only [RebalanceTreeAfterInsertion]
        rw [if_neg (by rintro ⟨hc, -⟩; rw [hel, her] at hc; omega),
          if_pos ⟨by rw [hel, her]; simp only [realHeight]; omega,
            by simp only [childKeyCmp]; exact hcmp⟩]
        simp only [RotateLeft]
        refine ⟨by simp [inorder], ?_, ?_, ?_⟩
        · exact ⟨⟨hokl, hokra, rfl⟩, hokrb, rfl⟩
        · refine ⟨⟨hbl, hbaB, ?_, ?_⟩, hbbB, ?_, ?_⟩ <;>
            (try simp only [realHeight]) <;> omega
        · simp only [realHeight]; omega
      · exact absurd (by omega) hbfne
      · -- left-heavy child: the inserted key went left of rq; double rotation
        have hk : k < rq.1 := hbfl hbf0
        have hcmp : 0 < CompareKeys rq.1 k := CompareKeys_pos_iff.mpr hk
        -- ra is non-nil: its height is realHeight l + 1 ≥ 1
        cases ra with
        | nil => simp only [realHeight] at hbf0; omega
        | node aq aa ab ah =>
          obtain ⟨hbaa, hbab, he1, he2⟩ := hbaB
          obtain ⟨hokaa, hokab, hca⟩ := hokra
          simp only [realHeight] at heq hbf0 hd1 hd2
          simp only [RebalanceTreeAfterInsertion]
          rw [if_neg (by rintro ⟨hc, -⟩; rw [hel, her] at hc; omega),
            if_neg (by rintro ⟨-, hc⟩; simp only [childKeyCmp] at hc; omega),
            if_neg (by
              rintro ⟨hc, -⟩
              rw [hel, her] at hc
              simp only [realHeight] at hc
              omega),
            if_pos ⟨by rw [hel, her]; simp only [realHeight]; omega,
              by simp only [childKeyCmp]; exact hcmp⟩]
          simp only [RotateLeft, RotateRight]
          refine ⟨by simp [inorder], ?_, ?_, ?_⟩
          · exact ⟨⟨hokl, hokaa, rfl⟩, ⟨hokab, hokrb, rfl⟩, rfl⟩
          · refine ⟨⟨hbl, hbaa, ?_, ?_⟩, ⟨hbab, hbbB, ?_, ?_⟩, ?_, ?_⟩ <;>
              (try simp only [realHeight]) <;> omega
          · simp only [realHeight]; omega

/-! ## Sorted-insertion list lemmas -/

theorem insertInorder_append_left {p : K × V} {A B : List (K × V)} {q : K × V}
    (hq : p.1 < q.1) :
    insertInorder p (A ++ q :: B) = insertInorder p A ++ q :: B := by
  induction A with
  | nil => rw [List.nil_append, insertInorder, insertInorder, if_pos hq]; rfl
  | cons a as ih =>
    by_cases hpa : p.1 < a.1
    · rw [List.cons_append, insertInorder, if_pos hpa, insertInorder, if_pos hpa]
      rfl
    · rw [List.cons_append, insertInorder, if_neg hpa, insertInorder, if_neg hpa,
        List.cons_append, ih]

theorem insertInorder_append_right {p : K × V} {A B : List (K × V)} {q : K × V}
    (hA : ∀ x ∈ A, x.1 < p.1) (hq : q.1 < p.1) :
    insertInorder p (A ++ q :: B) = A ++ q :: insertInorder p B := by
  induction A with
  | nil =>
    rw [List.nil_append, insertInorder, if_neg (by exact not_lt.mpr hq.le),
      List.nil_append]
  | cons a as ih =>
    rw [List.cons_append, insertInorder,
      if_neg (not_lt.mpr (hA a (by simp)).le), List.cons_append,
      ih fun x hx => hA x (by simp [hx])]

theorem mem_insertInorder {p : K × V} {L : List (K × V)} {x : K × V} :
    x ∈ insertInorder p L ↔ x = p ∨ x ∈ L := by
  induction L with
  | nil => simp [insertInorder]
  | cons a as ih =>
    by_cases hpa : p.1 < a.1
    · rw [insertInorder, if_pos hpa]
      simp [List.mem_cons]
    · rw [insertInorder, if_neg hpa]
      simp only [List.mem_cons, ih]
      tauto

theorem length_insertInorder (p : K × V) (L : List (K × V)) :
    (insertInorder p L).length = L.length + 1 := by
  induction L with
  | nil => rfl
  | cons a as ih =>
    by_cases hpa : p.1 < a.1
    · rw [insertInorder, if_pos hpa]; simp
    · rw [insertInorder, if_neg hpa]; simp [ih]

theorem pairwise_insertInorder {p : K × V} {L : List (K × V)}
    (hL : L.Pairwise (fun a b => a.1 < b.1)) (hk : ∀ x ∈ L, x.1 ≠ p.1) :
    (insertInorder p L).Pairwise (fun a b => a.1 < b.1) := by
  induction L with
  | nil => simp [insertInorder]
  | cons a as ih =>
    rcases List.pairwise_cons.mp hL with ⟨ha, has⟩
    by_cases hpa : p.1 < a.1
    · rw [insertInorder, if_pos hpa]
      refine List.pairwise_cons.mpr ⟨?_, hL⟩
      intro b hb
      rcases List.mem_cons.mp hb with rfl | hb
      · exact hpa
      · exact hpa.trans (ha b hb)
    · rw [insertInorder, if_neg hpa]
      have hap : a.1 < p.1 :=
        lt_of_le_of_ne (not_lt.mp hpa) (hk a (by simp))
      refine List.pairwise_cons.mpr
        ⟨?_, ih has fun x hx => hk x (by simp [hx])⟩
      intro b hb
      rcases mem_insertInorder.mp hb with rfl | hb
      · exact hap
      · exact ha b hb

/-! ## The insertion specification -/

theorem keys_node (q : K × V) (l r : Entry K V) (h : Int) :
    keys (Entry.node q l r h) = keys l ++ q.1 :: keys r := by
  simp [keys, inorder]

theorem realHeight_eq_zero_iff {t : Entry K V} : realHeight t = 0 ↔ t = .nil := by
  cases t <;> simp [realHeight]

theorem InsertRecursive_spec {t : Entry K V} (hord : Ordered t)
    (hok : HeightsOk t) (hbal : Balanced t) {p : K × V}
    (hk : p.1 ∉ keys t) :
    (InsertRecursive t p).1 = p ∧
    inorder (InsertRecursive t p).2 = insertInorder p (inorder t) ∧
    HeightsOk (InsertRecursive t p).2 ∧
    Balanced (InsertRecursive t p).2 ∧
    (realHeight (InsertRecursive t p).2 = realHeight t ∨
     realHeight (InsertRecursive t p).2 = realHeight t + 1) ∧
    (realHeight (InsertRecursive t p).2 = realHeight t + 1 →
      (t = .nil ∨ BfProp p.1 (InsertRecursive t p).2)) := by
  induction t with
  | nil =>
    refine ⟨rfl, rfl, ?_, ?_, ?_, fun _ => Or.inl rfl⟩
    · exact ⟨trivial, trivial, by simp [EntryHeight]⟩
    · exact ⟨trivial, trivial, by simp [realHeight], by simp [realHeight]⟩
    · right; simp [realHeight, InsertRecursive]
  | node q l r h ihl ihr =>
    obtain ⟨hol, hor, hltA, hgtA⟩ := hord
    obtain ⟨hokl, hokr, hch⟩ := hok
    obtain ⟨hbll, hblr, hb1, hb2⟩ := hbal
    rw [keys_node] at hk
    have hkl : p.1 ∉ keys l := fun hm => hk (by simp [hm])
    have hkr : p.1 ∉ keys r := fun hm => hk (by simp [hm])
    have hkq : p.1 ≠ q.1 := fun he => hk (by simp [he])
    rw [AllKeys_iff] at hltA hgtA
    rcases lt_trichotomy (CompareKeys q.1 p.1) 0 with hc | hc | hc
    · -- q.1 < p.1: insert into the right subtree
      have hqp : q.1 < p.1 := CompareKeys_neg_iff.mp hc
      obtain ⟨ih1, ih2, ih3, ih4, ih5, ih6⟩ := ihr hor hokr hblr hkr
      simp only [InsertRecursive]
      rw [if_neg (by omega), if_pos hc, ih1]
      have hbf : realHeight (InsertRecursive r p).2 = realHeight l + 2 →
          BfProp p.1 (InsertRecursive r p).2 := by
        intro h2
        rcases ih6 (by omega) with hnil | hbf
        · subst hnil
          simp only [InsertRecursive, realHeight] at h2
          exact absurd h2 (by omega)
        · exact hbf
      obtain ⟨hA, hB⟩ := rebalance_insert_right (q := q) (s := h)
        hokl ih3 hbll ih4 (by omega) hbf
      by_cases hcase : realHeight (InsertRecursive r p).2 ≤ realHeight l + 1
      · rw [hA hcase]
        have hio : inorder (Entry.node q l (InsertRecursive r p).2
            (1 + max (EntryHeight l) (EntryHeight (InsertRecursive r p).2))) =
            insertInorder p (inorder (Entry.node q l r h)) := by
          simp only [inorder, ih2]
          rw [insertInorder_append_right (fun x hx => hltA x hx |>.trans hqp) hqp]
        refine ⟨rfl, hio, ⟨hokl, ih3, rfl⟩, ⟨hbll, ih4, by omega, by omega⟩, ?_, ?_⟩
        · simp only [realHeight]; omega
        · intro hgrew
          right
          simp only [realHeight] at hgrew
          refine ⟨by omega, fun hcon => absurd hcon (by omega), fun _ => hqp⟩
      · have hcase2 : realHeight (InsertRecursive r p).2 = realHeight l + 2 := by
          omega
        obtain ⟨hBio, hBok, hBbal, hBh⟩ := hB hcase2
        have hio : inorder (RebalanceTreeAfterInsertion
            (Entry.node q l (InsertRecursive r p).2 h) p.1) =
            insertInorder p (inorder (Entry.node q l r h)) := by
          rw [hBio]
          simp only [inorder, ih2]
          rw [insertInorder_append_right (fun x hx => hltA x hx |>.trans hqp) hqp]
        refine ⟨rfl, hio, hBok, hBbal, ?_, ?_⟩
        · simp only [realHeight]; omega
        · intro hgrew
          rw [hBh] at hgrew
          simp only [realHeight] at hgrew
          omega
    · exact absurd (CompareKeys_eq_zero_iff.mp hc).symm hkq
    · -- p.1 < q.1: insert into the left subtree
      have hpq : p.1 < q.1 := CompareKeys_pos_iff.mp hc
      obtain ⟨ih1, ih2, ih3, ih4, ih5, ih6⟩ := ihl hol hokl hbll hkl
      simp only [InsertRecursive]
      rw [if_pos hc, ih1]
      have hbf : realHeight (InsertRecursive l p).2 = realHeight r + 2 →
          BfProp p.1 (InsertRecursive l p).2 := by
        intro h2
        rcases ih6 (by omega) with hnil | hbf
        · subst hnil
          simp only [InsertRecursive, realHeight] at h2
          exact absurd h2 (by omega)
        · exact hbf
      obtain ⟨hA, hB⟩ := rebalance_insert_left (q := q) (s := h)
        ih3 hokr ih4 hblr (by omega) hbf
      by_cases hcase : realHeight (InsertRecursive l p).2 ≤ realHeight r + 1
      · rw [hA hcase]
        have hio : inorder (Entry.node q (InsertRecursive l p).2 r
            (1 + max (EntryHeight (InsertRecursive l p).2) (EntryHeight r))) =
            insertInorder p (inorder (Entry.node q l r h)) := by
          simp only [inorder, ih2]
          rw [insertInorder_append_left hpq]
        refine ⟨rfl, hio, ⟨ih3, hokr, rfl⟩, ⟨ih4, hblr, by omega, by omega⟩, ?_, ?_⟩
        · simp only [realHeight]; omega
        · intro hgrew
          right
          simp only [realHeight] at hgrew
          refine ⟨by omega, fun _ => hpq, fun hcon => absurd hcon (by omega)⟩
      · have hcase2 : realHeight (InsertRecursive l p).2 = realHeight r + 2 := by
          omega
        obtain ⟨hBio, hBok, hBbal, hBh⟩ := hB hcase2
        have hio : inorder (RebalanceTreeAfterInsertion
            (Entry.node q (InsertRecursive l p).2 r h) p.1) =
            insertInorder p (inorder (Entry.node q l r h)) := by
          rw [hBio]
          simp only [inorder, ih2]
          rw [insertInorder_append_left hpq]
        refine ⟨rfl, hio, hBok, hBbal, ?_, ?_⟩
        · simp only [realHeight]; omega
        · intro hgrew
          rw [hBh] at hgrew
          simp only [realHeight] at hgrew
          omega

/-! ## Rebalancing after deletion -/

theorem rebalance_delete {q : K × V} {l r : Entry K V} {s : Int}
    (hokl : HeightsOk l) (hokr : HeightsOk r)
    (hbl : Balanced l) (hbr : Balanced r)
    (hub : realHeight l ≤ realHeight r + 2)
    (hlb : realHeight r ≤ realHeight l + 2) :
    inorder (RebalanceTreeAfterDeletion (.node q l r s)) =
      inorder l ++ q :: inorder r ∧
    HeightsOk (RebalanceTreeAfterDeletion (.node q l r s)) ∧
    Balanced (RebalanceTreeAfterDeletion (.node q l r s)) ∧
    (realHeight (RebalanceTreeAfterDeletion (.node q l r s)) =
        1 + max (realHeight l) (realHeight r) ∨
      realHeight (RebalanceTreeAfterDeletion (.node q l r s)) + 1 =
        1 + max (realHeight l) (realHeight r)) ∧
    (realHeight l ≤ realHeight r + 1 → realHeight r ≤ realHeight l + 1 →
      RebalanceTreeAfterDeletion (.node q l r s) =
        .node q l r (1 + max (EntryHeight l) (EntryHeight r))) := by
  have hel := EntryHeight_eq hokl
  have her := EntryHeight_eq hokr
  by_cases hbal12 : realHeight l ≤ realHeight r + 1 ∧ realHeight r ≤ realHeight l + 1
  · -- already balanced: no rotation
    obtain ⟨h1, h2⟩ := hbal12
    simp only [RebalanceTreeAfterDeletion]
    rw [if_neg (by rw [hel, her]; omega), if_neg (by rw [hel, her]; omega)]
    exact ⟨by simp [inorder], ⟨hokl, hokr, rfl⟩, ⟨hbl, hbr, h1, h2⟩,
      Or.inl (by simp only [realHeight]), fun _ _ => rfl⟩
  · rcases (by omega : realHeight l = realHeight r + 2 ∨
        realHeight r = realHeight l + 2) with hd2 | hd2
    · -- left-heavy by 2
      cases l with
      | nil => simp only [realHeight] at hd2; omega
      | node lq la lb lh =>
        obtain ⟨hba, hbb, hx1, hx2⟩ := hbl
        obtain ⟨hokla, hoklb, hcl⟩ := hokl
        have hela := EntryHeight_eq hokla
        have helb := EntryHeight_eq hoklb
        simp only [realHeight] at hd2
        by_cases hlhd : realHeight lb ≤ realHeight la
        · -- left child not right-heavy: single right rotation
          simp only [RebalanceTreeAfterDeletion]
          rw [if_pos (by rw [hel, her]; simp only [realHeight]; omega),
            if_neg (by simp only [childBalance]; rw [hela, helb]; omega)]
          simp only [RotateRight]
          refine ⟨by simp [inorder], ⟨hokla, ⟨hoklb, hokr, rfl⟩, rfl⟩, ?_, ?_,
            fun hc1 _ => absurd hc1 (by simp only [realHeight]; omega)⟩
          · refine ⟨hba, ⟨hbb, hbr, ?_, ?_⟩, ?_, ?_⟩ <;>
              (try simp only [realHeight]) <;> omega
          · simp only [realHeight]; omega
        · -- left child right-heavy: double rotation
          cases lb with
          | nil => simp only [realHeight] at hlhd; omega
          | node bq ba bb bh =>
            obtain ⟨hbba, hbbb, he1, he2⟩ := hbb
            obtain ⟨hokba, hokbb, hcb⟩ := hoklb
            simp only [realHeight] at hd2 hx1 hx2 hlhd
            simp only [RebalanceTreeAfterDeletion]
            rw [if_pos (by rw [hel, her]; simp only [realHeight]; omega),
              if_pos (by
                simp only [childBalance]
                rw [hela, helb]
                simp only [realHeight]
                omega)]
            simp only [RotateLeft, RotateRight]
            refine ⟨by simp [inorder],
              ⟨⟨hokla, hokba, rfl⟩, ⟨hokbb, hokr, rfl⟩, rfl⟩, ?_, ?_,
              fun hc1 _ => absurd hc1 (by simp only [realHeight]; omega)⟩
            · refine ⟨⟨hba, hbba, ?_, ?_⟩, ⟨hbbb, hbr, ?_, ?_⟩, ?_, ?_⟩ <;>
                (try simp only [realHeight]) <;> omega
            · simp only [realHeight]; omega
    · -- right-heavy by 2
      cases r with
      | nil => simp only [realHeight] at hd2; omega
      | node rq ra rb rh =>
        obtain ⟨hba, hbb, hx1, hx2⟩ := hbr
        obtain ⟨hokra, hokrb, hcr⟩ := hokr
        have hera := EntryHeight_eq hokra
        have herb := EntryHeight_eq hokrb
        simp only [realHeight] at hd2
        by_cases hrhd : realHeight ra ≤ realHeight rb
        · -- right child not left-heavy: single left rotation
          simp only [RebalanceTreeAfterDeletion]
          rw [if_neg (by rw [hel, her]; simp only [realHeight]; omega),
            if_pos (by rw [hel, her]; simp only [realHeight]; omega),
            if_neg (by simp only [childBalance]; rw [hera, herb]; omega)]
          simp only [RotateLeft]
          refine ⟨by simp [inorder], ⟨⟨hokl, hokra, rfl⟩, hokrb, rfl⟩, ?_, ?_,
            fun _ hc2 => absurd hc2 (by simp only [realHeight]; omega)⟩
          · refine ⟨⟨hbl, hba, ?_, ?_⟩, hbb, ?_, ?_⟩ <;>
              (try simp only [realHeight]) <;> omega
          · simp only [realHeight]; omega
        · -- right child left-heavy: double rotation
          cases ra with
          | nil => simp only [realHeight] at hrhd; omega
          | node aq aa ab ah =>
            obtain ⟨hbaa, hbab, he1, he2⟩ := hba
            obtain ⟨hokaa, hokab, hca⟩ := hokra
            simp only [realHeight] at hd2 hx1 hx2 hrhd
            simp only [RebalanceTreeAfterDeletion]
            rw [if_neg (by rw [hel, her]; simp only [realHeight]; omega),
              if_pos (by rw [hel, her]; simp only [realHeight]; omega),
              if_pos (by
                simp only [childBalance]
                rw [hera, herb]
                simp only [realHeight]
                omega)]
            simp only [RotateLeft, RotateRight]
            refine ⟨by simp [inorder],
              ⟨⟨hokl, hokaa, rfl⟩, ⟨hokab, hokrb, rfl⟩, rfl⟩, ?_, ?_,
              fun _ hc2 => absurd hc2 (by simp only [realHeight]; omega)⟩
            · refine ⟨⟨hbl, hbaa, ?_, ?_⟩, ⟨hbab, hbb, ?_, ?_⟩, ?_, ?_⟩ <;>
                (try simp only [realHeight]) <;> omega
            · simp only [realHeight]; omega

/-! ## The pair swap into the successor node preserves tree shape -/

theorem EntryHeight_SwapIntoMin (t : Entry K V) (p : K × V) :
    EntryHeight (SwapIntoMin t p) = EntryHeight t := by
  cases t with
  | nil => rfl
  | node q l r h => cases l <;> rfl

theorem realHeight_SwapIntoMin (t : Entry K V) (p : K × V) :
    realHeight (SwapIntoMin t p) = realHeight t := by
  induction t with
  | nil => rfl
  | node q l r h ihl ihr =>
    cases l with
    | nil => simp [SwapIntoMin, realHeight]
    | node lq ll lr lh => simp only [SwapIntoMin, realHeight, ihl]

theorem HeightsOk_SwapIntoMin {t : Entry K V} (p : K × V) (h : HeightsOk t) :
    HeightsOk (SwapIntoMin t p) := by
  induction t with
  | nil => trivial
  | node q l r hh ihl ihr =>
    obtain ⟨h1, h2, h3⟩ := h
    cases l with
    | nil => exact ⟨trivial, h2, h3⟩
    | node lq ll lr lh =>
      exact ⟨ihl h1, h2, by rw [EntryHeight_SwapIntoMin]; exact h3⟩

theorem Balanced_SwapIntoMin {t : Entry K V} (p : K × V) (h : Balanced t) :
    Balanced (SwapIntoMin t p) := by
  induction t with
  | nil => trivial
  | node q l r hh ihl ihr =>
    obtain ⟨h1, h2, h3, h4⟩ := h
    cases l with
    | nil => exact ⟨trivial, h2, h3, h4⟩
    | node lq ll lr lh =>
      refine ⟨ihl h1, h2, ?_, ?_⟩ <;> rw [realHeight_SwapIntoMin]
      · exact h3
      · exact h4

theorem inorder_SwapIntoMin (q : K × V) (l r : Entry K V) (h : Int) (p : K × V) :
    inorder (SwapIntoMin (.node q l r h) p) =
      p :: (inorder (.node q l r h)).tail := by
  induction l generalizing q r h with
  | nil => simp [SwapIntoMin, inorder]
  | node lq ll lr lh ihll ihlr =>
    have hin := ihll (q := lq) (r := lr) (h := lh)
    obtain ⟨tl0, htl0⟩ := inorder_minPair_cons lq ll lr lh
    simp only [SwapIntoMin, inorder] at hin ⊢
    rw [hin]
    simp only [inorder] at htl0
    rw [htl0]
    simp

/-! ## The deletion specification -/

theorem filter_ne_eq_self {k : K} {L : List (K × V)} (h : ∀ x ∈ L, x.1 ≠ k) :
    L.filter (fun x => decide (x.1 ≠ k)) = L :=
  List.filter_eq_self.mpr fun a ha => by simpa using h a ha

theorem RemoveRecursive_shape (full : Entry K V) :
    ∀ (t : Entry K V) (k : K), Ordered t → HeightsOk t → Balanced t →
      ((k ∉ keys t → RemoveRecursive full t k = (none, t)) ∧
       (k ∈ keys t →
         inorder (RemoveRecursive full t k).2 =
           (inorder t).filter (fun x => decide (x.1 ≠ k)) ∧
         HeightsOk (RemoveRecursive full t k).2 ∧
         Balanced (RemoveRecursive full t k).2 ∧
         (realHeight t = realHeight (RemoveRecursive full t k).2 ∨
          realHeight t = realHeight (RemoveRecursive full t k).2 + 1))) := by
  refine RemoveRecursive.induct full _ ?_ ?_ ?_ ?_ ?_ ?_
  · -- null subtree
    intro k _ _ _
    exact ⟨fun _ => by simp [RemoveRecursive], fun hk => by simp [keys, inorder] at hk⟩
  · -- k < q.1: recurse left
    intro k q l r h hcomp ih hord hok hbal
    obtain ⟨hol, hor, hltA, hgtA⟩ := hord
    obtain ⟨hokl, hokr, hch⟩ := hok
    obtain ⟨hbll, hblr, hb1, hb2⟩ := hbal
    rw [AllKeys_iff] at hltA hgtA
    have hkq : k < q.1 := CompareKeys_pos_iff.mp hcomp
    simp only [RemoveRecursive]
    rw [if_pos hcomp]
    constructor
    · intro hk
      have hkl : k ∉ keys l := fun hm => hk (by rw [keys_node]; simp [hm])
      obtain ⟨habs, -⟩ := ih hol hokl hbll
      rw [habs hkl]
      obtain ⟨-, -, -, -, hexact⟩ := rebalance_delete (q := q) (s := h)
        hokl hokr hbll hblr (by omega) (by omega)
      rw [hexact hb1 hb2, ← hch]
    · intro hk
      have hkl : k ∈ keys l := by
        rw [keys_node] at hk
        rcases List.mem_append.mp hk with h1 | h1
        · exact h1
        · rcases List.mem_cons.mp h1 with rfl | h1
          · exact absurd hkq (lt_irrefl _)
          · obtain ⟨v, hv⟩ := mem_keys.mp h1
            exact absurd ((hgtA _ hv).trans hkq) (lt_irrefl _)
      obtain ⟨-, hpres⟩ := ih hol hokl hbll
      obtain ⟨pio, pok, pbal, ph⟩ := hpres hkl
      obtain ⟨rio, rok, rbal, rh5, rexact⟩ := rebalance_delete (q := q) (s := h)
        pok hokr pbal hblr (by omega) (by omega)
      refine ⟨?_, rok, rbal, ?_⟩
      · rw [rio, pio]
        simp only [inorder, List.filter_append]
        rw [List.filter_cons_of_pos (by simp [hkq.ne']),
          filter_ne_eq_self fun x hx => (hkq.trans (hgtA x hx)).ne']
      · by_cases hbc : realHeight (RemoveRecursive full l k).2 ≤ realHeight r + 1 ∧
            realHeight r ≤ realHeight (RemoveRecursive full l k).2 + 1
        · rw [rexact hbc.1 hbc.2]
          simp only [realHeight]
          omega
        · rcases rh5 with h5 | h5 <;> simp only [realHeight] <;> omega
  · -- q.1 < k: recurse right
    intro k q l r h hc1 hcomp ih hord hok hbal
    obtain ⟨hol, hor, hltA, hgtA⟩ := hord
    obtain ⟨hokl, hokr, hch⟩ := hok
    obtain ⟨hbll, hblr, hb1, hb2⟩ := hbal
    rw [AllKeys_iff] at hltA hgtA
    have hkq : q.1 < k := CompareKeys_neg_iff.mp hcomp
    simp only [RemoveRecursive]
    rw [if_neg hc1, if_pos hcomp]
    constructor
    · intro hk
      have hkr : k ∉ keys r := fun hm => hk (by rw [keys_node]; simp [hm])
      obtain ⟨habs, -⟩ := ih hor hokr hblr
      rw [habs hkr]
      obtain ⟨-, -, -, -, hexact⟩ := rebalance_delete (q := q) (s := h)
        hokl hokr hbll hblr (by omega) (by omega)
      rw [hexact hb1 hb2, ← hch]
    · intro hk
      have hkr : k ∈ keys r := by
        rw [keys_node] at hk
        rcases List.mem_append.mp hk with h1 | h1
        · obtain ⟨v, hv⟩ := mem_keys.mp h1
          exact absurd ((hltA _ hv).trans hkq) (lt_irrefl _)
        · rcases List.mem_cons.mp h1 with rfl | h1
          · exact absurd hkq (lt_irrefl _)
          · exact h1
      obtain ⟨-, hpres⟩ := ih hor hokr hblr
      obtain ⟨pio, pok, pbal, ph⟩ := hpres hkr
      obtain ⟨rio, rok, rbal, rh5, rexact⟩ := rebalance_delete (q := q) (s := h)
        hokl pok hbll pbal (by omega) (by omega)
      refine ⟨?_, rok, rbal, ?_⟩
      · rw [rio, pio]
        simp only [inorder, List.filter_append]
        rw [List.filter_cons_of_pos (by simp [hkq.ne]),
          filter_ne_eq_self fun x hx => ((hltA x hx).trans hkq).ne]
      · by_cases hbc : realHeight l ≤ realHeight (RemoveRecursive full r k).2 + 1 ∧
            realHeight (RemoveRecursive full r k).2 ≤ realHeight l + 1
        · rw [rexact hbc.1 hbc.2]
          simp only [realHeight]
          omega
        · rcases rh5 with h5 | h5 <;> simp only [realHeight] <;> omega
  · -- found, no left child: replace by the right child, no rebalance
    intro k q h hc1 hc2 r hord hok hbal
    have hqk : q.1 = k :=
      CompareKeys_eq_zero_iff.mp (by omega)
    subst hqk
    obtain ⟨-, hor, -, hgtA⟩ := hord
    obtain ⟨-, hokr, hch⟩ := hok
    obtain ⟨-, hbr, hb1, hb2⟩ := hbal
    rw [AllKeys_iff] at hgtA
    simp only [RemoveRecursive]
    rw [if_neg hc1, if_neg hc2]
    constructor
    · intro hk
      refine absurd ?_ hk
      rw [keys_node]
      exact List.mem_append.mpr (Or.inr (List.mem_cons_self _ _))
    · intro _
      refine ⟨?_, hokr, hbr, ?_⟩
      · simp only [inorder, List.nil_append]
        rw [List.filter_cons_of_neg (by simp),
          filter_ne_eq_self fun x hx => (hgtA x hx).ne']
      · simp only [realHeight]; omega
  · -- found, no right child: replace by the left child, no rebalance
    intro k q h hc1 hc2 lq ll lr lh hord hok hbal
    have hqk : q.1 = k :=
      CompareKeys_eq_zero_iff.mp (by omega)
    subst hqk
    obtain ⟨hol, -, hltA, -⟩ := hord
    obtain ⟨hokl, -, hch⟩ := hok
    obtain ⟨hbl, -, hb1, hb2⟩ := hbal
    rw [AllKeys_iff] at hltA
    simp only [RemoveRecursive]
    rw [if_neg hc1, if_neg hc2]
    constructor
    · intro hk
      refine absurd ?_ hk
      rw [keys_node]
      exact List.mem_append.mpr (Or.inr (List.mem_cons_self _ _))
    · intro _
      refine ⟨?_, hokl, hbl, ?_⟩
      · have hiot : inorder (Entry.node q (Entry.node lq ll lr lh) Entry.nil h) =
            inorder (Entry.node lq ll lr lh) ++ q :: inorder (Entry.nil : Entry K V) :=
          rfl
        rw [hiot, List.filter_append, List.filter_cons_of_neg (by simp),
          filter_ne_eq_self fun x hx => (hltA x hx).ne]
        simp [inorder]
      · simp only [realHeight]; omega
  · -- found, two children: swap with the successor and delete it from the right
    intro k q h hc1 hc2 lq ll lr lh rq rl rr rh ihinner hord hok hbal
    have hqk : q.1 = k :=
      CompareKeys_eq_zero_iff.mp (by omega)
    subst hqk
    obtain ⟨hoL, hoR, hltA, hgtA⟩ := hord
    obtain ⟨hokL, hokR, hch⟩ := hok
    obtain ⟨hbL, hbR, hb1, hb2⟩ := hbal
    rw [AllKeys_iff] at hltA hgtA
    obtain ⟨tl0, hminR⟩ := inorder_minPair_cons rq rl rr rh
    have hior' : inorder (SwapIntoMin (Entry.node rq rl rr rh) q) = q :: tl0 := by
      rw [inorder_SwapIntoMin, hminR]
      rfl
    have htl0sub : ∀ x ∈ tl0, x ∈ inorder (Entry.node rq rl rr rh) := by
      intro x hx; rw [hminR]; simp [hx]
    have hor' : Ordered (SwapIntoMin (Entry.node rq rl rr rh) q) := by
      rw [ordered_iff_pairwise, hior']
      refine List.pairwise_cons.mpr ⟨fun x hx => hgtA x (htl0sub x hx), ?_⟩
      have := ordered_iff_pairwise.mp hoR
      rw [hminR] at this
      exact (List.pairwise_cons.mp this).2
    have hkmem' : q.1 ∈ keys (SwapIntoMin (Entry.node rq rl rr rh) q) :=
      mem_keys.mpr ⟨q.2, by rw [hior']; simp⟩
    obtain ⟨-, hpres⟩ := ihinner hor'
      (HeightsOk_SwapIntoMin q hokR) (Balanced_SwapIntoMin q hbR)
    obtain ⟨pio, pok, pbal, ph⟩ := hpres hkmem'
    have hphR : realHeight (SwapIntoMin (Entry.node rq rl rr rh) q) =
        realHeight (Entry.node rq rl rr rh) := realHeight_SwapIntoMin _ _
    have pio' : inorder (RemoveRecursive full
        (SwapIntoMin (Entry.node rq rl rr rh) q) q.1).2 = tl0 := by
      rw [pio, hior', List.filter_cons_of_neg (by simp)]
      exact filter_ne_eq_self fun x hx => (hgtA x (htl0sub x hx)).ne'
    simp only [RemoveRecursive]
    rw [if_neg hc1, if_neg hc2]
    constructor
    · intro hk
      refine absurd ?_ hk
      rw [keys_node]
      exact List.mem_append.mpr (Or.inr (List.mem_cons_self _ _))
    · intro _
      obtain ⟨rio, rok, rbal, rh5, rexact⟩ := rebalance_delete
        (q := minPair rq rl) (s := h)
        hokL pok hbL pbal (by omega) (by omega)
      refine ⟨?_, rok, rbal, ?_⟩
      · rw [rio, pio']
        have hiot : inorder (Entry.node q (Entry.node lq ll lr lh)
              (Entry.node rq rl rr rh) h) =
            inorder (Entry.node lq ll lr lh) ++
              q :: inorder (Entry.node rq rl rr rh) := rfl
        rw [hiot, List.filter_append, List.filter_cons_of_neg (by simp),
          filter_ne_eq_self (fun x hx => (hltA x hx).ne),
          filter_ne_eq_self (fun x hx => (hgtA x hx).ne'), hminR]
      · by_cases hbc : realHeight (Entry.node lq ll lr lh) ≤
            realHeight (RemoveRecursive full
              (SwapIntoMin (Entry.node rq rl rr rh) q) q.1).2 + 1 ∧
            realHeight (RemoveRecursive full
              (SwapIntoMin (Entry.node rq rl rr rh) q) q.1).2 ≤
              realHeight (Entry.node lq ll lr lh) + 1
        · rw [rexact hbc.1 hbc.2]
          simp only [realHeight] at *
          omega
        · rcases rh5 with h5 | h5 <;> simp only [realHeight] at * <;> omega

/-- The iterator returned by `RemoveRecursive` dereferences to the in-order
    successor of the removed key, computed against the pre-deletion tree. -/
theorem RemoveRecursive_succ {t : Entry K V} (ht : Ordered t) {k : K} :
    ∀ sub : Entry K V, Ordered sub →
      findSubtree sub k = findSubtree t k → k ∈ keys sub →
      (RemoveRecursive t sub k).1 = succPair t k := by
  intro sub
  induction sub with
  | nil => intro _ _ hk; simp [keys, inorder] at hk
  | node q l r h ihl ihr =>
    intro hosub hfeq hk
    obtain ⟨hol, hor, hltA, hgtA⟩ := hosub
    rw [AllKeys_iff] at hltA hgtA
    rcases lt_trichotomy (CompareKeys q.1 k) 0 with hc | hc | hc
    · -- q.1 < k: the sought node is in the right subtree
      have hqk : q.1 < k := CompareKeys_neg_iff.mp hc
      have hkr : k ∈ keys r := by
        rw [keys_node] at hk
        rcases List.mem_append.mp hk with h1 | h1
        · obtain ⟨v, hv⟩ := mem_keys.mp h1
          exact absurd ((hltA _ hv).trans hqk) (lt_irrefl _)
        · rcases List.mem_cons.mp h1 with rfl | h1
          · exact absurd hqk (lt_irrefl _)
          · exact h1
      have hfeq' : findSubtree r k = findSubtree t k := by
        rw [← hfeq, findSubtree, if_neg (by omega), if_pos hc]
      simp only [RemoveRecursive]
      rw [if_neg (by omega), if_pos hc]
      exact ihr hor hfeq' hkr
    · -- found
      have hfsub : findSubtree (Entry.node q l r h) k = Entry.node q l r h := by
        rw [findSubtree, if_pos hc]
      have hft : findSubtree t k = Entry.node q l r h := by rw [← hfeq, hfsub]
      have hsucc := succPair_via_node ht hft
      have hqk : q.1 = k := CompareKeys_eq_zero_iff.mp hc
      cases l with
      | nil =>
        simp only [RemoveRecursive]
        rw [if_neg (by omega), if_neg (by omega)]
        show InOrderSuccessorPair t q.1 r = succPair t k
        rw [hqk]
        exact hsucc
      | node lq ll lr lh =>
        cases r with
        | nil =>
          simp only [RemoveRecursive]
          rw [if_neg (by omega), if_neg (by omega)]
          show InOrderSuccessorPair t q.1 Entry.nil = succPair t k
          rw [hqk]
          exact hsucc
        | node rq rl rr rh =>
          simp only [RemoveRecursive]
          rw [if_neg (by omega), if_neg (by omega)]
          show some (minPair rq rl) = succPair t k
          rw [← hsucc]
          rfl
    · -- k < q.1: the sought node is in the left subtree
      have hqk : k < q.1 := CompareKeys_pos_iff.mp hc
      have hkl : k ∈ keys l := by
        rw [keys_node] at hk
        rcases List.mem_append.mp hk with h1 | h1
        · exact h1
        · rcases List.mem_cons.mp h1 with rfl | h1
          · exact absurd hqk (lt_irrefl _)
          · obtain ⟨v, hv⟩ := mem_keys.mp h1
            exact absurd ((hqk.trans (hgtA _ hv))) (lt_irrefl _)
      have hfeq' : findSubtree l k = findSubtree t k := by
        rw [← hfeq, findSubtree, if_neg (by omega), if_neg (by omega)]
      simp only [RemoveRecursive]
      rw [if_pos hc]
      exact ihl hol hfeq' hkl

/-! ## Map-level operation specifications -/

theorem filter_ne_of_split {k : K} {L C D : List (K × V)} {q : K × V}
    (hp : L.Pairwise (fun a b => a.1 < b.1)) (hdec : L = C ++ q :: D)
    (hq : q.1 = k) :
    L.filter (fun x => decide (x.1 ≠ k)) = C ++ D := by
  subst hdec
  rw [List.pairwise_append] at hp
  obtain ⟨hC, hqD, hcross⟩ := hp
  rw [List.pairwise_cons] at hqD
  rw [List.filter_append, List.filter_cons_of_neg (by simp [hq]),
    filter_ne_eq_self (fun x hx => by
      rw [← hq]; exact (hcross x hx q (by simp)).ne),
    filter_ne_eq_self (fun x hx => by rw [← hq]; exact (hqD.1 x hx).ne')]

theorem inorder_split_at_key {t : Entry K V} (ht : Ordered t) {k : K}
    (hk : k ∈ keys t) :
    ∃ C q D, inorder t = C ++ q :: D ∧ Prod.fst q = k := by
  have hne := findSubtree_ne_nil_of_mem ht hk
  rcases hfs : findSubtree t k with _ | ⟨q, l, r, h⟩
  · exact absurd hfs hne
  · obtain ⟨hqk, A, B, hdec, -, -⟩ := findSubtree_spec ht hfs
    exact ⟨A ++ inorder l, q, inorder r ++ B, by rw [hdec]; simp, hqk⟩

theorem emplace_spec {m : Map K V} (hI : Inv m) (p : K × V) :
    Inv (m.emplace p).2 ∧
    (m.find p.1 = none →
      (m.emplace p).1 = (p, true) ∧
      inorder (m.emplace p).2.root = insertInorder p (inorder m.root) ∧
      (m.emplace p).2.size = m.size + 1) ∧
    (∀ q, m.find p.1 = some q → m.emplace p = ((q, false), m)) := by
  obtain ⟨hord, hok, hbal, hsz⟩ := hI
  rcases hf : m.find p.1 with _ | q
  · have hk : p.1 ∉ keys m.root := (find_eq_none_iff hord).mp hf
    obtain ⟨i1, i2, i3, i4, i5, i6⟩ := InsertRecursive_spec hord hok hbal hk
    have hremp : m.emplace p = (((InsertRecursive m.root p).1, true),
        ⟨(InsertRecursive m.root p).2, m.size + 1⟩) := by
      rw [Map.emplace, hf]
    have hordnew : Ordered (InsertRecursive m.root p).2 := by
      rw [ordered_iff_pairwise, i2]
      refine pairwise_insertInorder (ordered_iff_pairwise.mp hord) ?_
      intro x hx he
      exact hk (mem_keys.mpr ⟨x.2, by rw [← he]; simpa using hx⟩)
    have hsznew : m.size + 1 = count (InsertRecursive m.root p).2 := by
      have h1 := length_inorder (InsertRecursive m.root p).2
      rw [i2, length_insertInorder, length_inorder] at h1
      omega
    rw [hremp]
    refine ⟨⟨hordnew, i3, i4, hsznew⟩, fun _ => ⟨by rw [i1], i2, rfl⟩, ?_⟩
    intro q hq
    simp at hq
  · have hremp : m.emplace p = ((q, false), m) := by rw [Map.emplace, hf]
    rw [hremp]
    refine ⟨⟨hord, hok, hbal, hsz⟩, ?_, ?_⟩
    · intro hn; simp at hn
    · intro q' hq'
      have := Option.some.inj hq'
      rw [this]

theorem eraseIter_spec {m : Map K V} (hI : Inv m) {k : K} {v : V}
    (hf : m.find k = some (k, v)) :
    Inv (m.eraseIter (some (k, v))).2 ∧
    inorder (m.eraseIter (some (k, v))).2.root =
      (inorder m.root).filter (fun x => decide (x.1 ≠ k)) ∧
    m.size = (m.eraseIter (some (k, v))).2.size + 1 ∧
    (m.eraseIter (some (k, v))).1 = succPair m.root k := by
  obtain ⟨hord, hok, hbal, hsz⟩ := hI
  have hkm : k ∈ keys m.root := by
    obtain ⟨hq1, hqm⟩ := find_mem hord hf
    exact mem_keys.mpr ⟨v, hqm⟩
  obtain ⟨-, hpres⟩ := RemoveRecursive_shape m.root m.root k hord hok hbal
  obtain ⟨pio, pok, pbal, ph⟩ := hpres hkm
  obtain ⟨C, q, D, hdec, hq1⟩ := inorder_split_at_key hord hkm
  have hfilter := filter_ne_of_split (ordered_iff_pairwise.mp hord) hdec hq1
  have hsuccv := RemoveRecursive_succ hord m.root hord rfl hkm
  have hsz1 : count (RemoveRecursive m.root m.root k).2 + 1 = count m.root := by
    have h1 := length_inorder (RemoveRecursive m.root m.root k).2
    have h2 := length_inorder m.root
    rw [pio, hfilter] at h1
    rw [hdec] at h2
    simp at h1 h2
    omega
  have hordnew : Ordered (RemoveRecursive m.root m.root k).2 := by
    rw [ordered_iff_pairwise, pio]
    exact List.Pairwise.sublist (List.filter_sublist _)
      (ordered_iff_pairwise.mp hord)
  refine ⟨⟨hordnew, pok, pbal, ?_⟩, pio, ?_, hsuccv⟩
  · show m.size - 1 = count (RemoveRecursive m.root m.root k).2
    omega
  · show m.size = m.size - 1 + 1
    omega

theorem eraseKey_spec {m : Map K V} (hI : Inv m) (k : K) :
    Inv (m.eraseKey k).2 ∧
    (m.find k = none → m.eraseKey k = (0, m)) ∧
    (m.find k ≠ none →
      (m.eraseKey k).1 = 1 ∧
      m.size = (m.eraseKey k).2.size + 1 ∧
      inorder (m.eraseKey k).2.root =
        (inorder m.root).filter (fun x => decide (x.1 ≠ k))) := by
  rcases hf : m.find k with _ | q
  · have heq : m.eraseKey k = (0, m) := by rw [Map.eraseKey, hf]
    rw [heq]
    exact ⟨hI, fun _ => rfl, fun hne => absurd rfl hne⟩
  · have hq1 : q.1 = k := (find_mem hI.1 hf).1
    have hqeq : q = (k, q.2) := by rw [← hq1]
    have hf' : m.find k = some (k, q.2) := by rw [hf, hqeq]
    have heq : m.eraseKey k = (1, (m.eraseIter (some (k, q.2))).2) := by
      rw [Map.eraseKey, hf, hqeq]
    obtain ⟨e1, e2, e3, e4⟩ := eraseIter_spec hI hf'
    rw [heq]
    exact ⟨e1, fun hn => by simp at hn, fun _ => ⟨rfl, e3, e2⟩⟩

theorem opIndex_spec {m : Map K V} (hI : Inv m) (k : K) (d : V) :
    Inv (m.opIndex k d).2 := by
  rcases hf : m.find k with _ | q
  · have heq : (m.opIndex k d).2 = (m.emplace (k, d)).2 := by
      rw [Map.opIndex, hf]
    rw [heq]
    exact (emplace_spec hI _).1
  · have heq : (m.opIndex k d).2 = m := by rw [Map.opIndex, hf]
    rw [heq]
    exact hI

theorem clearLoop_spec :
    ∀ (fuel : Nat) (m : Map K V), Inv m → m.size < fuel →
      Map.clearLoop fuel m m.begin = Map.init := by
  intro fuel
  induction fuel with
  | zero => intro m _ h; omega
  | succ n ih =>
    intro m hI hfuel
    obtain ⟨root, size⟩ := m
    cases root with
    | nil =>
      have hs : size = 0 := by
        have := hI.2.2.2
        simpa [count] using this
      subst hs
      rfl
    | node q l r h =>
      obtain ⟨tl0, hmin⟩ := inorder_minPair_cons q l r h
      set m : Map K V := ⟨Entry.node q l r h, size⟩ with hm
      have hmem : ((minPair q l).1, (minPair q l).2) ∈ inorder m.root := by
        show ((minPair q l).1, (minPair q l).2) ∈ inorder (Entry.node q l r h)
        rw [hmin]; simp
      have hfind : m.find (minPair q l).1 =
          some ((minPair q l).1, (minPair q l).2) :=
        find_eq_of_mem hI.1 hmem
      obtain ⟨e1, e2, e3, e4⟩ := eraseIter_spec hI hfind
      have hdec0 : inorder m.root = [] ++ minPair q l :: tl0 := by
        show inorder (Entry.node q l r h) = [] ++ minPair q l :: tl0
        rw [hmin]; rfl
      have hsuccmin : succPair m.root (minPair q l).1 = tl0.head? :=
        succPair_of_decomp hI.1 rfl hdec0
      have hfiltertl : (inorder m.root).filter
          (fun x => decide (x.1 ≠ (minPair q l).1)) = tl0 :=
        filter_ne_of_split (ordered_iff_pairwise.mp hI.1) hdec0 rfl
      have hnewbegin :
          (m.eraseIter (some ((minPair q l).1, (minPair q l).2))).1 =
          (m.eraseIter (some ((minPair q l).1, (minPair q l).2))).2.begin := by
        rw [Map.begin, GetMinEntry_eq_head]
        have h2 := e2
        rw [hfiltertl] at h2
        rw [h2, e4]
        exact hsuccmin
      have hstep : Map.clearLoop (n + 1) m m.begin =
          Map.clearLoop n
            (m.eraseIter (some ((minPair q l).1, (minPair q l).2))).2
            (m.eraseIter (some ((minPair q l).1, (minPair q l).2))).1 := by
        rfl
      rw [hstep, hnewbegin]
      exact ih _ e1 (by omega)

theorem clear_eq_init {m : Map K V} (hI : Inv m) : m.clear = Map.init :=
  clearLoop_spec (m.size + 1) m hI (by omega)

/-- Every reachable map state satisfies the full data-structure invariant. -/
theorem reachable_inv {m : Map K V} (h : Reachable m) : Inv m := by
  induction h with
  | init => exact ⟨trivial, trivial, trivial, rfl⟩
  | emplace m p hr ih => exact (emplace_spec ih p).1
  | eraseKey m k hr ih => exact (eraseKey_spec ih k).1
  | eraseIterFind m k hr ih =>
    rcases hf : m.find k with _ | q
    · exact ih
    · have hq1 : q.1 = k := (find_mem ih.1 hf).1
      have hqeq : q = (k, q.2) := by rw [← hq1]
      have hf' : m.find k = some (k, q.2) := by rw [hf, hqeq]
      have heq : (m.eraseIter (some q)).2 = (m.eraseIter (some (k, q.2))).2 := by
        rw [hqeq]
      rw [heq]
      exact (eraseIter_spec ih hf').1
  | eraseIterEnd m hr ih => exact ih
  | opIndex m k d hr ih => exact opIndex_spec ih k d
  | clearStep m hr ih => rw [clear_eq_init ih]; exact ⟨trivial, trivial, trivial, rfl⟩
  | moveTarget m hr ih => exact ih
  | moveSource m hr ih => exact ⟨trivial, trivial, trivial, rfl⟩
  | moveAssignTarget tgt m hr ih => exact ih
  | moveAssignSource tgt m hr ih => exact ⟨trivial, trivial, trivial, rfl⟩

theorem lowerBoundDescent_eq {t : Entry K V} (ht : Ordered t) (k : K) :
    lowerBoundDescentSpec t k =
      (inorder t).find? (fun v => ! decide (v.1 < k)) := by
  induction t with
  | nil => rfl
  | node q l r h ihl ihr =>
    obtain ⟨hol, hor, hltA, hgtA⟩ := ht
    rw [AllKeys_iff] at hltA hgtA
    have hio : inorder (Entry.node q l r h) = inorder l ++ q :: inorder r := rfl
    by_cases hq : q.1 < k
    · rw [lowerBoundDescentSpec, if_pos hq, hio,
        find?_append_false (fun x hx => by simp [(hltA x hx).trans hq]),
        List.find?_cons_of_neg _ (by simp [hq])]
      exact ihr hor
    · rw [lowerBoundDescentSpec, if_neg hq, hio, find?_append_split, ihl hol]
      rcases hfind : (inorder l).find? (fun v => ! decide (v.1 < k)) with _ | x
      · rw [hfind, List.find?_cons_of_pos _ (by simp [hq])]
      · rw [hfind]

/-! ## The claims -/

/-- C1: after every sequence of public insert (emplace / operator[]) and
    erase operations starting from the empty map, the tree satisfies, at
    every node: all left-subtree keys compare strictly below the node's key
    and all right-subtree keys strictly above (per the comparator), the
    children's heights differ by at most one, and every cached height equals
    1 + max of the children's cached heights. -/
theorem C1_avl_invariants {m : Map K V} (h : Reachable m) :
    Ordered m.root ∧ Balanced m.root ∧ HeightsOk m.root :=
  ⟨(reachable_inv h).1, (reachable_inv h).2.2.1, (reachable_inv h).2.1⟩

theorem C1_avl_invariants_witness :
    Reachable ((((Map.init.emplace ((1 : Int), (1 : Int))).2.emplace
        (2, 2)).2.emplace (3, 3)).2.eraseKey 2).2 ∧
    (Ordered ((((Map.init.emplace ((1 : Int), (1 : Int))).2.emplace
        (2, 2)).2.emplace (3, 3)).2.eraseKey 2).2.root ∧
      Balanced ((((Map.init.emplace ((1 : Int), (1 : Int))).2.emplace
        (2, 2)).2.emplace (3, 3)).2.eraseKey 2).2.root ∧
      HeightsOk ((((Map.init.emplace ((1 : Int), (1 : Int))).2.emplace
        (2, 2)).2.emplace (3, 3)).2.eraseKey 2).2.root) :=
  ⟨Reachable.eraseKey _ _ (Reachable.emplace _ _ (Reachable.emplace _ _
      (Reachable.emplace _ _ Reachable.init))),
    C1_avl_invariants (Reachable.eraseKey _ _ (Reachable.emplace _ _
      (Reachable.emplace _ _ (Reachable.emplace _ _ Reachable.init))))⟩

/-- C2: emplacing/inserting a key that is already present with value v
    returns (iterator to the existing entry, false), leaves the stored value
    v untouched (find still yields v) and leaves the size unchanged, for any
    new value. -/
theorem C2_insert_existing_first_insert_wins {m : Map K V} {k : K} {v : V}
    (hf : m.find k = some (k, v)) (w : V) :
    m.emplace (k, w) = (((k, v), false), m) ∧
    (m.emplace (k, w)).2.find k = some (k, v) ∧
    (m.emplace (k, w)).2.size = m.size := by
  have h1 : m.emplace (k, w) = (((k, v), false), m) := by
    simp only [Map.emplace, hf]
  exact ⟨h1, by rw [h1]; exact hf, by rw [h1]⟩

theorem C2_insert_existing_first_insert_wins_witness :
    (Map.init.emplace ((1 : Int), (10 : Int))).2.find 1 = some (1, 10) ∧
    ((Map.init.emplace ((1 : Int), (10 : Int))).2.emplace (1, 20) =
        (((1, 10), false), (Map.init.emplace ((1 : Int), (10 : Int))).2) ∧
      ((Map.init.emplace ((1 : Int), (10 : Int))).2.emplace (1, 20)).2.find 1 =
        some (1, 10) ∧
      ((Map.init.emplace ((1 : Int), (10 : Int))).2.emplace (1, 20)).2.size =
        (Map.init.emplace ((1 : Int), (10 : Int))).2.size) :=
  ⟨by decide, C2_insert_existing_first_insert_wins (by decide) 20⟩

/-- C3 counterexample: inserting (k, v') for an existing key k does NOT
    overwrite the stored value — after inserting (1, 10) and then (1, 20),
    find 1 still yields 10, not 20 (first insert wins). -/
theorem C3_counterexample_no_overwrite :
    ((Map.init.emplace ((1 : Int), (10 : Int))).2.emplace (1, 20)).2.find 1 =
        some (1, 10) ∧
    ((Map.init.emplace ((1 : Int), (10 : Int))).2.emplace (1, 20)).2.find 1 ≠
        some (1, 20) := by
  decide

/-- C3 (amended): for every map and key k already present, inserting (k, v')
    leaves the map completely unchanged — both the stored value for k and
    the tree structure (nodes and linkage). -/
theorem C3_amended_insert_existing_unchanged {m : Map K V} {k : K}
    {q : K × V} (hf : m.find k = some q) (w : V) :
    (m.emplace (k, w)).2 = m := by
  simp only [Map.emplace, hf]

theorem C3_amended_insert_existing_unchanged_witness :
    (Map.init.emplace ((1 : Int), (10 : Int))).2.find 1 = some (1, 10) ∧
    ((Map.init.emplace ((1 : Int), (10 : Int))).2.emplace (1, 20)).2 =
      (Map.init.emplace ((1 : Int), (10 : Int))).2 :=
  ⟨by decide, C3_amended_insert_existing_unchanged
    (q := ((1 : Int), (10 : Int))) (by decide) 20⟩

/-- C4: erase(k) returns 1 and decreases the size by exactly one when k is
    present; when k is absent it returns 0 and leaves the map (contents and
    size) unchanged — in particular erasing an absent key twice returns
    (0, unchanged map) both times. -/
theorem C4_erase_by_key {m : Map K V} (hI : Inv m) (k : K) :
    (k ∈ keys m.root →
      (m.eraseKey k).1 = 1 ∧ m.size = (m.eraseKey k).2.size + 1) ∧
    (k ∉ keys m.root →
      m.eraseKey k = (0, m) ∧ (m.eraseKey k).2.eraseKey k = (0, m)) := by
  obtain ⟨hInv2, habs, hpres⟩ := eraseKey_spec hI k
  constructor
  · intro hmem
    have hne : m.find k ≠ none := fun hn =>
      ((find_eq_none_iff hI.1).mp hn) hmem
    exact ⟨(hpres hne).1, (hpres hne).2.1⟩
  · intro hni
    have h0 := habs ((find_eq_none_iff hI.1).mpr hni)
    refine ⟨h0, ?_⟩
    rw [h0]
    exact h0

theorem C4_erase_by_key_witness :
    Inv (Map.init.emplace ((1 : Int), (10 : Int))).2 ∧
    (((3 : Int) ∈ keys (Map.init.emplace ((1 : Int), (10 : Int))).2.root →
        ((Map.init.emplace ((1 : Int), (10 : Int))).2.eraseKey 3).1 = 1 ∧
        (Map.init.emplace ((1 : Int), (10 : Int))).2.size =
          ((Map.init.emplace ((1 : Int), (10 : Int))).2.eraseKey 3).2.size + 1) ∧
      ((3 : Int) ∉ keys (Map.init.emplace ((1 : Int), (10 : Int))).2.root →
        (Map.init.emplace ((1 : Int), (10 : Int))).2.eraseKey 3 =
          (0, (Map.init.emplace ((1 : Int), (10 : Int))).2) ∧
        ((Map.init.emplace ((1 : Int), (10 : Int))).2.eraseKey 3).2.eraseKey 3 =
          (0, (Map.init.emplace ((1 : Int), (10 : Int))).2))) :=
  ⟨by decide, C4_erase_by_key (by decide) 3⟩

/-- C5: erase(end()) removes nothing and returns end(); erase of a valid
    iterator positioned at key k removes exactly the entry with key k and
    returns an iterator positioned at the pre-removal in-order successor of
    k (the first stored entry whose key exceeds k; end() if k was the
    maximum). -/
theorem C5_erase_iterator {m : Map K V} (hI : Inv m) :
    m.eraseIter none = (none, m) ∧
    ∀ k v, m.find k = some (k, v) →
      (m.eraseIter (some (k, v))).1 = succPair m.root k ∧
      inorder (m.eraseIter (some (k, v))).2.root =
        (inorder m.root).filter (fun x => decide (x.1 ≠ k)) := by
  refine ⟨rfl, fun k v hf => ?_⟩
  obtain ⟨e1, e2, e3, e4⟩ := eraseIter_spec hI hf
  exact ⟨e4, e2⟩

theorem C5_erase_iterator_witness :
    Inv ((Map.init.emplace ((1 : Int), (10 : Int))).2.emplace (2, 20)).2 ∧
    (((Map.init.emplace ((1 : Int), (10 : Int))).2.emplace
        (2, 20)).2.eraseIter none =
      (none, ((Map.init.emplace ((1 : Int), (10 : Int))).2.emplace
        (2, 20)).2) ∧
    ∀ k v, ((Map.init.emplace ((1 : Int), (10 : Int))).2.emplace
        (2, 20)).2.find k = some (k, v) →
      (((Map.init.emplace ((1 : Int), (10 : Int))).2.emplace
          (2, 20)).2.eraseIter (some (k, v))).1 =
        succPair ((Map.init.emplace ((1 : Int), (10 : Int))).2.emplace
          (2, 20)).2.root k ∧
      inorder (((Map.init.emplace ((1 : Int), (10 : Int))).2.emplace
          (2, 20)).2.eraseIter (some (k, v))).2.root =
        (inorder ((Map.init.emplace ((1 : Int), (10 : Int))).2.emplace
          (2, 20)).2.root).filter (fun x => decide (x.1 ≠ k))) :=
  ⟨by decide, C5_erase_iterator (by decide)⟩

/-- C6: iterating from begin() to end() via the in-order successor
    computation yields exactly the stored entries (each exactly once) in
    strictly increasing key order per the comparator. -/
theorem C6_iteration_sorted {m : Map K V} (hI : Inv m) :
    m.iterList = inorder m.root ∧
    (m.iterList.map Prod.fst).Pairwise (· < ·) := by
  have h1 := iterList_eq_inorder hI.1 (le_of_eq hI.2.2.2.symm)
  exact ⟨h1, by rw [h1]; exact nodup_keys_of_ordered hI.1⟩

theorem C6_iteration_sorted_witness :
    Inv (((Map.init.emplace ((2 : Int), (20 : Int))).2.emplace
        (1, 10)).2.emplace (3, 30)).2 ∧
    ((((Map.init.emplace ((2 : Int), (20 : Int))).2.emplace
        (1, 10)).2.emplace (3, 30)).2.iterList =
      inorder (((Map.init.emplace ((2 : Int), (20 : Int))).2.emplace
        (1, 10)).2.emplace (3, 30)).2.root ∧
    (((((Map.init.emplace ((2 : Int), (20 : Int))).2.emplace
        (1, 10)).2.emplace (3, 30)).2.iterList).map Prod.fst).Pairwise
        (· < ·)) :=
  ⟨by decide, C6_iteration_sorted (by decide)⟩

/-- C7: on every reachable map state, size() equals the number of nodes
    reachable from the root, which equals the number of entries produced by
    iterating begin() to end(). -/
theorem C7_size_eq_count_eq_iteration {m : Map K V} (h : Reachable m) :
    m.size = count m.root ∧ m.iterList.length = m.size := by
  have hI := reachable_inv h
  have h1 := iterList_eq_inorder hI.1 (le_of_eq hI.2.2.2.symm)
  exact ⟨hI.2.2.2, by rw [h1, length_inorder]; exact hI.2.2.2.symm⟩

theorem C7_size_eq_count_eq_iteration_witness :
    Reachable ((Map.init.emplace ((1 : Int), (10 : Int))).2.emplace (2, 20)).2 ∧
    (((Map.init.emplace ((1 : Int), (10 : Int))).2.emplace (2, 20)).2.size =
      count ((Map.init.emplace ((1 : Int), (10 : Int))).2.emplace
        (2, 20)).2.root ∧
    ((Map.init.emplace ((1 : Int), (10 : Int))).2.emplace
        (2, 20)).2.iterList.length =
      ((Map.init.emplace ((1 : Int), (10 : Int))).2.emplace (2, 20)).2.size) :=
  ⟨Reachable.emplace _ _ (Reachable.emplace _ _ Reachable.init),
    C7_size_eq_count_eq_iteration
      (Reachable.emplace _ _ (Reachable.emplace _ _ Reachable.init))⟩

/-- C8 counterexample: `operator==` compares only the stored node pointer,
    and both end iterators hold the null pointer, so the end iterators of
    two DIFFERENT maps compare equal — refuting "two iterators obtained from
    two distinct trees never compare equal, including the end iterators". -/
theorem C8_counterexample_end_iterators_equal :
    iterEq (endIter 0) (endIter 1) = true ∧ (0 : Nat) ≠ 1 := by
  decide

/-- C8 (amended): iterator equality is node-pointer identity; two iterators
    positioned at live nodes of two different trees (whose node addresses
    are disjoint) never compare equal, but the end iterators of any two maps
    always compare equal because both hold the null pointer. -/
theorem C8_amended_iterator_equality (A B : List Nat)
    (hdisj : ∀ a ∈ A, ∀ b ∈ B, a ≠ b) (i j : IterRep)
    (hi : ∃ a ∈ A, i.curr = some a) (hj : ∃ b ∈ B, j.curr = some b) :
    iterEq i j = false ∧
    (∀ x y : IterRep, (iterEq x y = true ↔ x.curr = y.curr)) ∧
    (∀ m1 m2 : Nat, iterEq (endIter m1) (endIter m2) = true) := by
  refine ⟨?_, fun x y => ?_, fun _ _ => rfl⟩
  · obtain ⟨a, ha, hia⟩ := hi
    obtain ⟨b, hb, hjb⟩ := hj
    rw [iterEq, hia, hjb]
    simp
    exact hdisj a ha b hb
  · rw [iterEq]
    exact beq_iff_eq


theorem C8_amended_iterator_equality_witness :
    (∀ a ∈ [10], ∀ b ∈ [20], a ≠ b) ∧
    (∃ a ∈ [10], (IterRep.mk (some 10) 0).curr = some a) ∧
    (∃ b ∈ [20], (IterRep.mk (some 20) 1).curr = some b) ∧
    (iterEq (IterRep.mk (some 10) 0) (IterRep.mk (some 20) 1) = false ∧
      (∀ x y : IterRep, (iterEq x y = true ↔ x.curr = y.curr)) ∧
      (∀ m1 m2 : Nat, iterEq (endIter m1) (endIter m2) = true)) :=
  ⟨by decide, ⟨10, by decide, rfl⟩, ⟨20, by decide, rfl⟩,
    C8_amended_iterator_equality [10] [20] (by decide)
      (IterRep.mk (some 10) 0) (IterRep.mk (some 20) 1)
      ⟨10, by decide, rfl⟩ ⟨20, by decide, rfl⟩⟩

/-- C9: lower_bound — the linear scan over the begin→end iteration with
    predicate "key is not less than k" — returns the first entry in
    iteration order whose key is not below k (end() if none), and is
    semantically equal to the spec's O(log n) tree-descent reference
    definition of lower bound. -/
theorem C9_lower_bound_refinement {m : Map K V} (hI : Inv m) (k : K) :
    m.lower_bound k = lowerBoundDescentSpec m.root k ∧
    m.lower_bound k = (inorder m.root).find? (fun v => ! decide (v.1 < k)) := by
  have h1 := iterList_eq_inorder hI.1 (le_of_eq hI.2.2.2.symm)
  have h2 : m.lower_bound k =
      (inorder m.root).find? (fun v => ! decide (v.1 < k)) := by
    rw [Map.lower_bound, h1]
  exact ⟨by rw [h2, lowerBoundDescent_eq hI.1], h2⟩

theorem C9_lower_bound_refinement_witness :
    Inv (((Map.init.emplace ((5 : Int), (50 : Int))).2.emplace
        (3, 30)).2.emplace (8, 80)).2 ∧
    ((((Map.init.emplace ((5 : Int), (50 : Int))).2.emplace
        (3, 30)).2.emplace (8, 80)).2.lower_bound 4 =
      lowerBoundDescentSpec (((Map.init.emplace ((5 : Int), (50 : Int))).2.emplace
        (3, 30)).2.emplace (8, 80)).2.root 4 ∧
    (((Map.init.emplace ((5 : Int), (50 : Int))).2.emplace
        (3, 30)).2.emplace (8, 80)).2.lower_bound 4 =
      (inorder (((Map.init.emplace ((5 : Int), (50 : Int))).2.emplace
        (3, 30)).2.emplace (8, 80)).2.root).find?
        (fun v => ! decide (v.1 < 4))) :=
  ⟨by decide, C9_lower_bound_refinement (by decide) 4⟩

/-- C10: on every reachable map state, empty() is true exactly when size()
    is 0, both equivalent to the root being null; move construction and move
    assignment transfer root/size to the target and leave the source with a
    null root and size 0. -/
theorem C10_empty_iff_size_zero {m : Map K V} (h : Reachable m)
    (tgt : Map K V) :
    ((m.empty = true) ↔ m.size = 0) ∧
    ((m.empty = true) ↔ m.root = Entry.nil) ∧
    m.moveConstruct.1 = m ∧
    m.moveConstruct.2.root = Entry.nil ∧ m.moveConstruct.2.size = 0 ∧
    (Map.moveAssign tgt m).1 = ⟨m.root, m.size⟩ ∧
    (Map.moveAssign tgt m).2.root = Entry.nil ∧
    (Map.moveAssign tgt m).2.size = 0 := by
  have hc := (reachable_inv h).2.2.2
  have hempty_iff : (m.empty = true) ↔ m.root = Entry.nil := by
    cases hroot : m.root <;> simp [Map.empty, hroot]
  refine ⟨?_, hempty_iff, rfl, rfl, rfl, rfl, rfl, rfl⟩
  rw [hempty_iff, hc]
  exact count_eq_zero_iff.symm

theorem C10_empty_iff_size_zero_witness :
    Reachable (Map.init.emplace ((1 : Int), (10 : Int))).2 ∧
    ((((Map.init.emplace ((1 : Int), (10 : Int))).2.empty = true) ↔
        (Map.init.emplace ((1 : Int), (10 : Int))).2.size = 0) ∧
      (((Map.init.emplace ((1 : Int), (10 : Int))).2.empty = true) ↔
        (Map.init.emplace ((1 : Int), (10 : Int))).2.root = Entry.nil) ∧
      (Map.init.emplace ((1 : Int), (10 : Int))).2.moveConstruct.1 =
        (Map.init.emplace ((1 : Int), (10 : Int))).2 ∧
      (Map.init.emplace ((1 : Int), (10 : Int))).2.moveConstruct.2.root =
        Entry.nil ∧
      (Map.init.emplace ((1 : Int), (10 : Int))).2.moveConstruct.2.size = 0 ∧
      (Map.moveAssign Map.init
          (Map.init.emplace ((1 : Int), (10 : Int))).2).1 =
        ⟨(Map.init.emplace ((1 : Int), (10 : Int))).2.root,
          (Map.init.emplace ((1 : Int), (10 : Int))).2.size⟩ ∧
      (Map.moveAssign Map.init
          (Map.init.emplace ((1 : Int), (10 : Int))).2).2.root = Entry.nil ∧
      (Map.moveAssign Map.init
          (Map.init.emplace ((1 : Int), (10 : Int))).2).2.size = 0) :=
  ⟨Reachable.emplace _ _ Reachable.init,
    C10_empty_iff_size_zero (Reachable.emplace _ _ Reachable.init) Map.init⟩

end GrpcMap
